import Mathlib

/-!
# Verification of the code-block schema normalization core

This development shallowly embeds `src/lib/validation/schema.js` of
`golery-slate-code-block`: the run grouper `getSuccessiveNodes`, the two
repair strategies `onlyLine` (extract-and-reline) and `noOrphanLine`
(wrap-orphans), and the `schema` dispatch, together with a model of the
host editor's key-addressed tree transaction primitives.

Nodes are immutable trees with a numeric identity key, a `type` string, a
raw text payload, marks, and an ordered child list.  The editor threads a
document tree, a fresh-key counter (modelling `regenerateKey`), and an
instrumented trace of issued operations grouped into
`withoutNormalizing` batches.
-/

namespace SlateCodeBlock

/-- Configuration consumed by the plugin: the two distinguished block
types and the `allowMarks` flag (from `src/lib/options`, as described by
the spec's configuration surface). -/
structure Options where
  containerType : String
  lineType : String
  allowMarks : Bool

/-- A document node: identity key, block type, raw text payload (for text
leaves), formatting marks and ordered children.  Models the slate `Node`
values manipulated by `schema.js`. -/
inductive Node where
  | mk (key : Nat) (type : String) (tx : String) (marks : List String) (nodes : List Node)

/-- The identity key of a node. -/
def Node.key : Node → Nat
  | .mk k _ _ _ _ => k

/-- The block type of a node. -/
def Node.type : Node → String
  | .mk _ t _ _ _ => t

/-- The raw text payload stored on the node itself. -/
def Node.tx : Node → String
  | .mk _ _ tx _ _ => tx

/-- The formatting marks of a node. -/
def Node.marks : Node → List String
  | .mk _ _ _ m _ => m

/-- The ordered children of a node. -/
def Node.nodes : Node → List Node
  | .mk _ _ _ _ ns => ns

/-- Replace only the node's own key, keeping everything else: models
slate's `node.regenerateKey()` once the fresh key is chosen. -/
def Node.withKey : Node → Nat → Node
  | .mk _ t tx m ns, k => .mk k t tx m ns

mutual

/-- Modelled from the spec: slate's `node.text` getter, the concatenated
text of the node and its descendants, used by `onlyLine`'s
`nonLineGroup.map(n => n.text).join('')`. -/
def Node.text : Node → String
  | .mk _ _ tx _ ns => tx ++ nodesText ns

/-- Concatenated text of a list of nodes. -/
def nodesText : List Node → String
  | [] => ""
  | n :: ns => Node.text n ++ nodesText ns

end

mutual

/-- All identity keys occurring in the subtree of a node. -/
def Node.keys : Node → List Nat
  | .mk k _ _ _ ns => k :: nodesKeys ns

/-- All identity keys occurring in a list of subtrees. -/
def nodesKeys : List Node → List Nat
  | [] => []
  | n :: ns => Node.keys n ++ nodesKeys ns

end

mutual

/-- Structural (value) equality test on nodes, modelling the
`Immutable.is` equality used by `List.indexOf` in the source. -/
def Node.beq : Node → Node → Bool
  | .mk k t tx m ns, .mk k' t' tx' m' ns' =>
    k == k' && t == t' && tx == tx' && m == m' && nodesBeq ns ns'

/-- Structural equality test on node lists. -/
def nodesBeq : List Node → List Node → Bool
  | [], [] => true
  | n :: ns, n' :: ns' => Node.beq n n' && nodesBeq ns ns'
  | _, _ => false

end

/-- Insert an element at an index of a list, clamping the index to the
length (Immutable.js `splice` semantics used by the host's insert). -/
def listInsertAt (l : List α) (i : Nat) (a : α) : List α :=
  l.take i ++ a :: l.drop i

mutual

/-- Modelled from the spec: the host transaction's key-addressed insert.
Inserts `m` as a child of the node with key `pk` at index `i`. -/
def Node.insertByKey : Node → Nat → Nat → Node → Node
  | .mk k t tx mk' ns, pk, i, m =>
    if k = pk then .mk k t tx mk' (listInsertAt ns i m)
    else .mk k t tx mk' (nodesInsertByKey ns pk i m)

/-- Key-addressed insert over a list of subtrees. -/
def nodesInsertByKey : List Node → Nat → Nat → Node → List Node
  | [], _, _, _ => []
  | n :: ns, pk, i, m => Node.insertByKey n pk i m :: nodesInsertByKey ns pk i m

end

mutual

/-- Modelled from the spec: the host transaction's key-addressed removal.
Removes every child (at any depth) whose key is `rk`. -/
def Node.removeByKey : Node → Nat → Node
  | .mk k t tx m ns, rk => .mk k t tx m (nodesRemoveByKey ns rk)

/-- Key-addressed removal over a list of subtrees. -/
def nodesRemoveByKey : List Node → Nat → List Node
  | [], _ => []
  | n :: ns, rk =>
    if n.key = rk then nodesRemoveByKey ns rk
    else Node.removeByKey n rk :: nodesRemoveByKey ns rk

end

mutual

/-- Find the node with the given key in a subtree. -/
def Node.findByKey : Node → Nat → Option Node
  | n@(.mk k _ _ _ ns), tk => if k = tk then some n else nodesFindByKey ns tk

/-- Find the node with the given key in a list of subtrees. -/
def nodesFindByKey : List Node → Nat → Option Node
  | [], _ => none
  | n :: ns, tk =>
    match Node.findByKey n tk with
    | some r => some r
    | none => nodesFindByKey ns tk

end

mutual

/-- Modelled from the spec: `document.getParent(key)`, the parent node of
the node with the given key. -/
def Node.getParent : Node → Nat → Option Node
  | n@(.mk _ _ _ _ ns), tk =>
    if ns.any (fun c => c.key == tk) then some n else nodesGetParent ns tk

/-- Parent lookup over a list of subtrees. -/
def nodesGetParent : List Node → Nat → Option Node
  | [], _ => none
  | n :: ns, tk =>
    match Node.getParent n tk with
    | some r => some r
    | none => nodesGetParent ns tk

end

/-- Index of the first element structurally equal to `x` (Immutable.js
`List.indexOf`); returns the length when `x` does not occur. -/
def idxOf : List Node → Node → Nat
  | [], _ => 0
  | a :: l, x => if Node.beq a x then 0 else idxOf l x + 1

/-- Evaluation of `idxOf` on the empty list. -/
theorem idxOf_nil (x : Node) : idxOf [] x = 0 := rfl

/-- A transaction operation issued against the host editor. -/
inductive Op where
  | insert (parentKey index : Nat) (node : Node)
  | remove (key : Nat)
  | move (key newParentKey index : Nat)

/-- The editor/transaction handle: the live document, the fresh-key
counter backing `regenerateKey`, the operations of the currently open
`withoutNormalizing` batch, and the closed batches in order. -/
structure Editor where
  document : Node
  nextKey : Nat
  current : List Op
  batches : List (List Op)

/-- Model of `editor.insertNodeByKey(parentKey, index, node)`. -/
def Editor.insertNodeByKey (e : Editor) (pk i : Nat) (n : Node) : Editor :=
  { e with document := e.document.insertByKey pk i n,
           current := e.current ++ [Op.insert pk i n] }

/-- Model of `editor.removeNodeByKey(key)`. -/
def Editor.removeNodeByKey (e : Editor) (k : Nat) : Editor :=
  { e with document := e.document.removeByKey k,
           current := e.current ++ [Op.remove k] }

/-- Model of `editor.moveNodeByKey(key, newParentKey, newIndex)`: remove the node
from its current position, then insert it under the new parent. -/
def Editor.moveNodeByKey (e : Editor) (k pk i : Nat) : Editor :=
  match e.document.findByKey k with
  | none => { e with current := e.current ++ [Op.move k pk i] }
  | some n =>
    { e with document := (e.document.removeByKey k).insertByKey pk i n,
             current := e.current ++ [Op.move k pk i] }

/-- Model of `editor.withoutNormalizing(fn)`: run `fn`, collecting the operations
it issues as one suppressed-renormalization batch. -/
def Editor.withoutNormalizing (e : Editor) (fn : Editor → Editor) : Editor :=
  let e2 := fn { e with current := [] }
  { e2 with current := e.current, batches := e2.batches ++ [e2.current] }

/-- Total number of operations issued on the editor. -/
def Editor.opsCount (e : Editor) : Nat :=
  (e.batches.map List.length).sum + e.current.length

/-- All operations issued on the editor, in order. -/
def Editor.allOps (e : Editor) : List Op :=
  e.batches.flatten ++ e.current

/-- Dropping the length of the `takeWhile` prefix is `dropWhile`. -/
theorem drop_length_takeWhile (p : α → Bool) (l : List α) :
    l.drop (l.takeWhile p).length = l.dropWhile p := by
  have h := List.takeWhile_append_dropWhile p l
  calc l.drop (l.takeWhile p).length
      = (l.takeWhile p ++ l.dropWhile p).drop (l.takeWhile p).length := by rw [h]
    _ = l.dropWhile p := List.drop_left _ _

/-- The head of a non-empty `dropWhile` result fails the predicate. -/
theorem head_dropWhile_false (p : α → Bool) (l : List α) (a : α) (t : List α)
    (h : l.dropWhile p = a :: t) : p a = false := by
  induction l with
  | nil => simp [List.dropWhile] at h
  | cons x xs ih =>
    rw [List.dropWhile_cons] at h
    by_cases hx : p x
    · simp only [hx, if_true] at h
      exact ih h
    · simp only [hx, if_false] at h
      cases h
      simpa using hx

/-- The tail processed by the grouper's recursive call is strictly
shorter than its input. -/
theorem restOfNodes_length_lt (l : List α) (f : α → Bool)
    (h : l.drop (l.takeWhile (fun n => !f n)).length ≠ []) :
    ((l.drop (l.takeWhile (fun n => !f n)).length).drop
      ((l.drop (l.takeWhile (fun n => !f n)).length).takeWhile f).length).length
      < l.length := by
  rw [drop_length_takeWhile (fun n => !f n) l] at h ⊢
  rw [drop_length_takeWhile f (l.dropWhile (fun n => !f n))]
  have hd_le : (l.dropWhile (fun n => !f n)).length ≤ l.length :=
    List.Sublist.length_le (List.dropWhile_sublist _)
  have hpos : 0 < (l.dropWhile (fun n => !f n)).length :=
    List.length_pos.mpr h
  have htw : 0 < ((l.dropWhile (fun n => !f n)).takeWhile f).length := by
    cases hcase : l.dropWhile (fun n => !f n) with
    | nil => exact absurd hcase h
    | cons a t =>
      have ha : f a = true := by
        have hfa := head_dropWhile_false (fun n => !f n) l a t hcase
        simpa using hfa
      simp [List.takeWhile_cons, ha]
  have hsum : ((l.dropWhile (fun n => !f n)).takeWhile f).length +
      ((l.dropWhile (fun n => !f n)).dropWhile f).length =
      (l.dropWhile (fun n => !f n)).length := by
    have hh := congrArg List.length
      (List.takeWhile_append_dropWhile f (l.dropWhile (fun n => !f n)))
    simp only [List.length_append] at hh
    exact hh
  omega

/--
Embedding of `getSuccessiveNodes(nodes, match)` from `schema.js`: partition an ordered
sequence into the maximal contiguous runs of elements satisfying the
predicate, dropping the interleaving failing runs.  (The source's
parameter `match` is renamed `f`; `takeUntil p` is `takeWhile (!p ·)`.)
-/
def getSuccessiveNodes (nodes : List α) (f : α → Bool) : List (List α) :=
  let nonLines := nodes.takeWhile (fun n => !f n)
  let afterNonLines := nodes.drop nonLines.length
  if afterNonLines.isEmpty then
    []
  else
    let firstGroup := afterNonLines.takeWhile f
    let restOfNodes := afterNonLines.drop firstGroup.length
    [firstGroup] ++ getSuccessiveNodes restOfNodes f
termination_by nodes.length
decreasing_by
  simp only [List.isEmpty_iff] at *
  rename_i h
  exact restOfNodes_length_lt nodes f h

/-- The `codeLines.forEach((codeLine, index) => editor.insertNodeByKey(
parent.key, invalidNodeIndex + index, codeLine.regenerateKey()))` loop of
`onlyLine`, with the fresh-key counter threaded through `regenerateKey`. -/
def insertLines (pk base : Nat) : Nat → List Node → Editor → Editor
  | _, [], ed => ed
  | i, cl :: cls, ed =>
    let fresh := cl.withKey ed.nextKey
    let ed' := { ed with nextKey := ed.nextKey + 1 }
    insertLines pk base (i + 1) cls (ed'.insertNodeByKey pk (base + i) fresh)

/-- The body of the `forEach` over non-line groups in `onlyLine`:
concatenate the group's text, reparse it, insert the new lines at the
group's live position in one batch, then remove the group's nodes by key
in a second batch. -/
def onlyLineGroupStep (opts : Options) (textToLines : String → List Node)
    (ed : Editor) (nonLineGroup : List Node) : Editor :=
  let text := String.join (nonLineGroup.map Node.text)
  let codeLines := textToLines text
  match nonLineGroup.head? with
  | none => ed
  | some first =>
    match ed.document.getParent first.key with
    | none => ed
    | some parent =>
      let invalidNodeIndex := idxOf parent.nodes first
      let ed1 := ed.withoutNormalizing
        (insertLines parent.key invalidNodeIndex 0 codeLines)
      ed1.withoutNormalizing (fun ed2 =>
        nonLineGroup.foldl (fun ed3 n => ed3.removeNodeByKey n.key) ed2)

/--
Embedding of `onlyLine(opts, editor, error)` from `schema.js`: the extract-and-reline
repair for a container holding non-line children.  The external
`deserializeCode(opts, text).nodes` collaborator is the `textToLines`
parameter.  The JS function mutates `editor` and returns it.
-/
def onlyLine (opts : Options) (textToLines : String → List Node)
    (editor : Editor) (errorNode : Node) : Editor :=
  let isNotLine : Node → Bool := fun n => n.type != opts.lineType
  let nonLineGroups := getSuccessiveNodes errorNode.nodes isNotLine
  (nonLineGroups.filter (fun group => !group.isEmpty)).foldl
    (onlyLineGroupStep opts textToLines) editor

/-- The `group.forEach((line, index) => editor.moveNodeByKey(line.key,
container.key, index))` loop of `noOrphanLine`. -/
def moveLines (containerKey : Nat) : Nat → List Node → Editor → Editor
  | _, [], ed => ed
  | i, line :: ls, ed =>
    moveLines containerKey (i + 1) ls (ed.moveNodeByKey line.key containerKey i)

/-- The body of the `forEach` over line groups in `noOrphanLine`: create
a fresh empty container (`Block.create({type, nodes: []}).regenerateKey()`),
insert it at the index of the group's first line in the stale
`parent.nodes` snapshot, then move the group's lines under it in order. -/
def noOrphanGroupStep (opts : Options) (parent : Node) (ed : Editor)
    (group : List Node) : Editor :=
  match group.head? with
  | none => ed
  | some first =>
    let container := Node.mk ed.nextKey opts.containerType "" [] []
    let ed1 := { ed with nextKey := ed.nextKey + 1 }
    let firstLineIndex := idxOf parent.nodes first
    let ed2 := ed1.insertNodeByKey parent.key firstLineIndex container
    moveLines container.key 0 group ed2

/--
Embedding of `noOrphanLine(opts, editor, error)` from `schema.js`: the wrap-orphans
repair for line nodes outside a container.  `error.parent` is the stale
parent snapshot from the violation; note that `firstLineIndex` is looked
up in that snapshot's `parent.nodes`, not in the live document.  The JS
function has no `return` statement, hence the `none` return component.
-/
def noOrphanLine (opts : Options) (editor : Editor) (errorParent : Node) :
    Editor × Option Editor :=
  let parent := errorParent
  let isLine : Node → Bool := fun n => n.type == opts.lineType
  let linesGroup := getSuccessiveNodes parent.nodes isLine
  let result := editor.withoutNormalizing (fun ed0 =>
    linesGroup.foldl (noOrphanGroupStep opts parent) ed0)
  (result, none)

/-- Violation code from `slate-schema-violations`. -/
def CHILD_OBJECT_INVALID : String := "child_object_invalid"

/-- Violation code from `slate-schema-violations`. -/
def CHILD_TYPE_INVALID : String := "child_type_invalid"

/-- Violation code from `slate-schema-violations`. -/
def PARENT_OBJECT_INVALID : String := "parent_object_invalid"

/-- Violation code from `slate-schema-violations`. -/
def PARENT_TYPE_INVALID : String := "parent_type_invalid"

/-- The violation value handed to a `normalize` callback: a code, the
offending node and its parent. -/
structure SlateError where
  code : String
  node : Node
  parent : Node

/-- The `normalize` callback of the container block rule in `schema`:
child violations are routed to `onlyLine`, everything else returns
`undefined` (modelled as an unchanged editor and a `none` result). -/
def containerNormalize (opts : Options) (textToLines : String → List Node)
    (editor : Editor) (error : SlateError) : Editor × Option Editor :=
  if error.code = CHILD_OBJECT_INVALID ∨ error.code = CHILD_TYPE_INVALID then
    let ed := onlyLine opts textToLines editor error.node
    (ed, some ed)
  else
    (editor, none)

/-- The `normalize` callback of the line block rule in `schema`: parent
violations are routed to `noOrphanLine`, everything else returns
`undefined`. -/
def lineNormalize (opts : Options) (editor : Editor) (error : SlateError) :
    Editor × Option Editor :=
  if error.code = PARENT_OBJECT_INVALID ∨ error.code = PARENT_TYPE_INVALID then
    noOrphanLine opts editor error.parent
  else
    (editor, none)

/-- The declared rule for the container block type: children must match
the line type, with the `normalize` repair callback. -/
structure ContainerRule where
  nodesMatchType : String
  normalize : Editor → SlateError → Editor × Option Editor

/-- The declared rule for the line block type: children are text nodes
(`min 1`), the parent must be the container type, and `marks` is the
optional marks constraint (`some []` forbids all marks; `none` declares
no constraint). -/
structure LineRule where
  nodesMatchObject : String
  nodesMatchMin : Nat
  parentType : String
  marks : Option (List String)
  normalize : Editor → SlateError → Editor × Option Editor

/-- The schema definition produced by `schema(opts)`. -/
structure Schema where
  containerRule : ContainerRule
  lineRule : LineRule

/-- Embedding of `schema(opts)` from `schema.js`: the base schema, with
`blocks[opts.lineType].marks = []` added exactly when `allowMarks` is
false. -/
def schema (opts : Options) (textToLines : String → List Node) : Schema :=
  { containerRule :=
      { nodesMatchType := opts.lineType,
        normalize := containerNormalize opts textToLines },
    lineRule :=
      { nodesMatchObject := "text",
        nodesMatchMin := 1,
        parentType := opts.containerType,
        marks := if opts.allowMarks then none else some [],
        normalize := lineNormalize opts } }

/-! ## Run grouper lemmas -/

/-- Normalized unfolding equation of `getSuccessiveNodes` in terms of
`dropWhile`. -/
theorem getSuccessiveNodes_eq (l : List α) (f : α → Bool) :
    getSuccessiveNodes l f =
      if (l.dropWhile (fun n => !f n)).isEmpty then []
      else ((l.dropWhile (fun n => !f n)).takeWhile f) ::
        getSuccessiveNodes ((l.dropWhile (fun n => !f n)).dropWhile f) f := by
  rw [getSuccessiveNodes]
  simp only [drop_length_takeWhile]
  rfl

/-- When the input holds no passing element, the grouper returns no
groups. -/
theorem getSuccessiveNodes_nil_case (l : List α) (f : α → Bool)
    (h : l.dropWhile (fun n => !f n) = []) : getSuccessiveNodes l f = [] := by
  rw [getSuccessiveNodes_eq, if_pos]
  simp [h]

/-- Cons-shaped unfolding of the grouper when a passing element exists. -/
theorem getSuccessiveNodes_cons_case (l : List α) (f : α → Bool)
    (h : l.dropWhile (fun n => !f n) ≠ []) :
    getSuccessiveNodes l f =
      ((l.dropWhile (fun n => !f n)).takeWhile f) ::
        getSuccessiveNodes ((l.dropWhile (fun n => !f n)).dropWhile f) f := by
  rw [getSuccessiveNodes_eq, if_neg]
  simpa [List.isEmpty_iff] using h

/-- The recursive tail of the grouper is strictly shorter. -/
theorem getSuccessiveNodes_rest_lt (l : List α) (f : α → Bool)
    (h : l.dropWhile (fun n => !f n) ≠ []) :
    ((l.dropWhile (fun n => !f n)).dropWhile f).length < l.length := by
  have h1 := restOfNodes_length_lt l f (by rw [drop_length_takeWhile]; exact h)
  rw [drop_length_takeWhile (fun n => !f n) l] at h1
  rw [drop_length_takeWhile f (l.dropWhile (fun n => !f n))] at h1
  exact h1

/-- The head of the non-empty `dropWhile (!f ·)` tail passes `f`, so the
grouper's first group is non-empty. -/
theorem takeWhile_dropWhile_ne_nil (l : List α) (f : α → Bool)
    (h : l.dropWhile (fun n => !f n) ≠ []) :
    (l.dropWhile (fun n => !f n)).takeWhile f ≠ [] := by
  cases hcase : l.dropWhile (fun n => !f n) with
  | nil => exact absurd hcase h
  | cons a t =>
    have ha : f a = true := by
      have hfa := head_dropWhile_false (fun n => !f n) l a t hcase
      simpa using hfa
    simp [List.takeWhile_cons, ha]

/-- Concatenating the groups returned by the grouper reproduces exactly
the sub-sequence of elements satisfying the predicate. -/
theorem getSuccessiveNodes_flatten (f : α → Bool) :
    ∀ (l : List α), (getSuccessiveNodes l f).flatten = l.filter f := by
  suffices h : ∀ (n : Nat) (l : List α), l.length = n →
      (getSuccessiveNodes l f).flatten = l.filter f by
    intro l; exact h l.length l rfl
  intro n
  induction n using Nat.strong_induction_on with
  | _ n ih =>
    intro l hl
    by_cases hemp : l.dropWhile (fun n => !f n) = []
    · rw [getSuccessiveNodes_nil_case l f hemp]
      rw [List.dropWhile_eq_nil_iff] at hemp
      rw [List.flatten_nil, eq_comm, List.filter_eq_nil_iff]
      intro a ha
      have := hemp a ha
      simpa using this
    · rw [getSuccessiveNodes_cons_case l f hemp, List.flatten_cons]
      have hrest := getSuccessiveNodes_rest_lt l f hemp
      have hih := ih ((l.dropWhile (fun n => !f n)).dropWhile f).length
        (by omega) ((l.dropWhile (fun n => !f n)).dropWhile f) rfl
      rw [hih]
      have hsplit : l = l.takeWhile (fun n => !f n) ++ l.dropWhile (fun n => !f n) :=
        (List.takeWhile_append_dropWhile _ _).symm
      conv_rhs => rw [hsplit]
      rw [List.filter_append]
      have h2 : (l.takeWhile (fun n => !f n)).filter f = [] := by
        rw [List.filter_eq_nil_iff]
        intro a ha
        have := List.mem_takeWhile_imp ha
        simpa using this
      rw [h2, List.nil_append]
      have hsplit2 : l.dropWhile (fun n => !f n) =
          (l.dropWhile (fun n => !f n)).takeWhile f ++
          (l.dropWhile (fun n => !f n)).dropWhile f :=
        (List.takeWhile_append_dropWhile _ _).symm
      conv_rhs => rw [hsplit2]
      rw [List.filter_append]
      have h3 : ((l.dropWhile (fun n => !f n)).takeWhile f).filter f =
          (l.dropWhile (fun n => !f n)).takeWhile f := by
        rw [List.filter_eq_self]
        intro a ha
        exact List.mem_takeWhile_imp ha
      rw [h3]

/-- Every group returned by the grouper is non-empty. -/
theorem getSuccessiveNodes_ne_nil (f : α → Bool) :
    ∀ (l : List α), ∀ g ∈ getSuccessiveNodes l f, g ≠ [] := by
  suffices h : ∀ (n : Nat) (l : List α), l.length = n →
      ∀ g ∈ getSuccessiveNodes l f, g ≠ [] by
    intro l; exact h l.length l rfl
  intro n
  induction n using Nat.strong_induction_on with
  | _ n ih =>
    intro l hl g hg
    by_cases hemp : l.dropWhile (fun n => !f n) = []
    · rw [getSuccessiveNodes_nil_case l f hemp] at hg
      simp at hg
    · rw [getSuccessiveNodes_cons_case l f hemp, List.mem_cons] at hg
      rcases hg with hg | hg
      · subst hg
        exact takeWhile_dropWhile_ne_nil l f hemp
      · have hrest := getSuccessiveNodes_rest_lt l f hemp
        exact ih ((l.dropWhile (fun n => !f n)).dropWhile f).length (by omega)
          ((l.dropWhile (fun n => !f n)).dropWhile f) rfl g hg

/-- Every group returned by the grouper is a contiguous sub-sequence of
the input. -/
theorem getSuccessiveNodes_contiguous (f : α → Bool) :
    ∀ (l : List α), ∀ g ∈ getSuccessiveNodes l f, ∃ s t, s ++ g ++ t = l := by
  suffices h : ∀ (n : Nat) (l : List α), l.length = n →
      ∀ g ∈ getSuccessiveNodes l f, ∃ s t, s ++ g ++ t = l by
    intro l; exact h l.length l rfl
  intro n
  induction n using Nat.strong_induction_on with
  | _ n ih =>
    intro l hl g hg
    by_cases hemp : l.dropWhile (fun n => !f n) = []
    · rw [getSuccessiveNodes_nil_case l f hemp] at hg
      simp at hg
    · rw [getSuccessiveNodes_cons_case l f hemp, List.mem_cons] at hg
      have hsplit : l = l.takeWhile (fun n => !f n) ++ l.dropWhile (fun n => !f n) :=
        (List.takeWhile_append_dropWhile _ _).symm
      have hsplit2 : l.dropWhile (fun n => !f n) =
          (l.dropWhile (fun n => !f n)).takeWhile f ++
          (l.dropWhile (fun n => !f n)).dropWhile f :=
        (List.takeWhile_append_dropWhile _ _).symm
      rcases hg with hg | hg
      · subst hg
        refine ⟨l.takeWhile (fun n => !f n),
          (l.dropWhile (fun n => !f n)).dropWhile f, ?_⟩
        conv_rhs => rw [hsplit, hsplit2]
        simp [List.append_assoc]
      · have hrest := getSuccessiveNodes_rest_lt l f hemp
        obtain ⟨s, t, hst⟩ := ih ((l.dropWhile (fun n => !f n)).dropWhile f).length
          (by omega) ((l.dropWhile (fun n => !f n)).dropWhile f) rfl g hg
        refine ⟨l.takeWhile (fun n => !f n) ++
          (l.dropWhile (fun n => !f n)).takeWhile f ++ s, t, ?_⟩
        conv_rhs => rw [hsplit, hsplit2]
        rw [← hst]
        simp [List.append_assoc]

/-- The grouper returns at most as many groups as input elements. -/
theorem getSuccessiveNodes_count_le (f : α → Bool) :
    ∀ (l : List α), (getSuccessiveNodes l f).length ≤ l.length := by
  suffices h : ∀ (n : Nat) (l : List α), l.length = n →
      (getSuccessiveNodes l f).length ≤ l.length by
    intro l; exact h l.length l rfl
  intro n
  induction n using Nat.strong_induction_on with
  | _ n ih =>
    intro l hl
    by_cases hemp : l.dropWhile (fun n => !f n) = []
    · rw [getSuccessiveNodes_nil_case l f hemp]
      simp
    · rw [getSuccessiveNodes_cons_case l f hemp, List.length_cons]
      have hrest := getSuccessiveNodes_rest_lt l f hemp
      have hih := ih ((l.dropWhile (fun n => !f n)).dropWhile f).length
        (by omega) ((l.dropWhile (fun n => !f n)).dropWhile f) rfl
      omega

/-- An input with no passing element yields no groups. -/
theorem getSuccessiveNodes_eq_nil (f : α → Bool) (l : List α)
    (h : ∀ a ∈ l, f a = false) : getSuccessiveNodes l f = [] := by
  apply getSuccessiveNodes_nil_case
  rw [List.dropWhile_eq_nil_iff]
  intro a ha
  simp [h a ha]

/-- The non-emptiness filter in `onlyLine` keeps every group. -/
theorem getSuccessiveNodes_filter_ne_nil (f : α → Bool) (l : List α) :
    (getSuccessiveNodes l f).filter (fun g => !g.isEmpty) =
      getSuccessiveNodes l f := by
  rw [List.filter_eq_self]
  intro g hg
  have := getSuccessiveNodes_ne_nil f l g hg
  simpa [List.isEmpty_iff] using this

/-! ## Node infrastructure lemmas -/

/-- Mutual induction over nodes and node lists. -/
theorem node_list_ind {P : Node → Prop} {Q : List Node → Prop}
    (h1 : ∀ k t tx m ns, Q ns → P (Node.mk k t tx m ns))
    (h2 : Q []) (h3 : ∀ n ns, P n → Q ns → Q (n :: ns)) :
    (∀ n, P n) ∧ (∀ l, Q l) := by
  have hn : ∀ n, P n := fun n => @Node.rec P Q h1 h2 h3 n
  refine ⟨hn, ?_⟩
  intro l
  induction l with
  | nil => exact h2
  | cons x xs ih => exact h3 x xs (hn x) ih

/-- Both `Node.beq` and `nodesBeq` decide equality. -/
theorem nodeBeq_iff_aux :
    (∀ a : Node, ∀ b, Node.beq a b = true ↔ a = b) ∧
    (∀ l : List Node, ∀ m, nodesBeq l m = true ↔ l = m) := by
  apply node_list_ind
  · intro k t tx m ns hns b
    cases b with
    | mk k' t' tx' m' ns' =>
      simp only [Node.beq, Bool.and_eq_true, beq_iff_eq, hns, Node.mk.injEq]
      tauto
  · intro m
    cases m with
    | nil => simp [nodesBeq]
    | cons b bs => simp [nodesBeq]
  · intro n ns hn hns m
    cases m with
    | nil => simp [nodesBeq]
    | cons b bs =>
      simp only [nodesBeq, Bool.and_eq_true, hn, hns, List.cons.injEq]

/-- The test `Node.beq` decides equality. -/
theorem nodeBeq_iff (a b : Node) : Node.beq a b = true ↔ a = b :=
  nodeBeq_iff_aux.1 a b

/-- The test `Node.beq` is reflexive. -/
theorem nodeBeq_refl (n : Node) : Node.beq n n = true :=
  (nodeBeq_iff n n).mpr rfl

/-- Nodes with different keys are not structurally equal. -/
theorem nodeBeq_false_of_key_ne {a b : Node} (h : a.key ≠ b.key) :
    Node.beq a b = false := by
  cases hb : Node.beq a b with
  | false => rfl
  | true =>
    have := (nodeBeq_iff a b).mp hb
    exact absurd (congrArg Node.key this) h

/-- Guarded evaluation of `idxOf` when the head matches. -/
theorem idxOf_cons_eq (a : Node) (l : List Node) (x : Node) (h : a = x) :
    idxOf (a :: l) x = 0 := by
  subst h
  simp [idxOf, nodeBeq_refl]

/-- Guarded evaluation of `idxOf` when the head differs. -/
theorem idxOf_cons_ne (a : Node) (l : List Node) (x : Node) (h : ¬ a = x) :
    idxOf (a :: l) x = idxOf l x + 1 := by
  have hb : Node.beq a x = false := by
    cases hb : Node.beq a x with
    | false => rfl
    | true => exact absurd ((nodeBeq_iff a x).mp hb) h
  simp [idxOf, hb]

/-- Lookup with `idxOf` finds the first occurrence right after a prefix whose
elements all have different keys. -/
theorem idxOf_append_cons (P t : List Node) (x : Node)
    (h : ∀ y ∈ P, y.key ≠ x.key) : idxOf (P ++ x :: t) x = P.length := by
  induction P with
  | nil => simp [idxOf, nodeBeq_refl]
  | cons a P ih =>
    have ha : Node.beq a x = false :=
      nodeBeq_false_of_key_ne (h a (List.mem_cons_self a P))
    simp only [List.cons_append, idxOf, ha, Bool.false_eq_true, if_false,
      List.append_eq]
    rw [ih (fun y hy => h y (List.mem_cons_of_mem a hy))]
    simp

/-- Subtree keys distribute over list append. -/
theorem nodesKeys_append (A B : List Node) :
    nodesKeys (A ++ B) = nodesKeys A ++ nodesKeys B := by
  induction A with
  | nil => simp [nodesKeys]
  | cons a A ih => simp [nodesKeys, ih]

/-- A node's own key is among its subtree keys. -/
theorem key_mem_keys (n : Node) : n.key ∈ n.keys := by
  cases n with
  | mk k t tx m ns => simp [Node.keys, Node.key]

/-- Subtree keys of a member occur in the list's subtree keys. -/
theorem keys_subset_of_mem {n : Node} {l : List Node} (h : n ∈ l) :
    ∀ k ∈ n.keys, k ∈ nodesKeys l := by
  induction l with
  | nil => simp at h
  | cons a l ih =>
    intro k hk
    rcases List.mem_cons.mp h with h | h
    · subst h
      simp [nodesKeys, hk]
    · simp [nodesKeys]
      exact Or.inr (ih h k hk)

/-- A key-addressed removal with an absent key changes nothing. -/
theorem removeByKey_noop_aux :
    (∀ n : Node, ∀ k, k ∉ n.keys → n.removeByKey k = n) ∧
    (∀ l : List Node, ∀ k, k ∉ nodesKeys l → nodesRemoveByKey l k = l) := by
  apply node_list_ind
  · intro key t tx m ns hns k hk
    simp only [Node.keys, List.mem_cons] at hk
    push_neg at hk
    simp only [Node.removeByKey]
    rw [hns k hk.2]
  · intro k _
    simp [nodesRemoveByKey]
  · intro n ns hn hns k hk
    rw [nodesKeys] at hk
    simp only [List.mem_append] at hk
    push_neg at hk
    have hkey : n.key ≠ k := fun he => hk.1 (he ▸ key_mem_keys n)
    simp only [nodesRemoveByKey, hkey, if_false]
    rw [hn k hk.1, hns k hk.2]

/-- Removal with an absent key is the identity on a node. -/
theorem removeByKey_noop (n : Node) (k : Nat) (h : k ∉ n.keys) :
    n.removeByKey k = n := removeByKey_noop_aux.1 n k h

/-- Removal with an absent key is the identity on a node list. -/
theorem nodesRemoveByKey_noop (l : List Node) (k : Nat)
    (h : k ∉ nodesKeys l) : nodesRemoveByKey l k = l :=
  removeByKey_noop_aux.2 l k h

/-- Key-addressed removal distributes over append. -/
theorem nodesRemoveByKey_append (A B : List Node) (k : Nat) :
    nodesRemoveByKey (A ++ B) k =
      nodesRemoveByKey A k ++ nodesRemoveByKey B k := by
  induction A with
  | nil => simp [nodesRemoveByKey]
  | cons a A ih =>
    by_cases h : a.key = k
    · simp [nodesRemoveByKey, h, ih]
    · simp [nodesRemoveByKey, h, ih]

/-- Removing the key of the head of the middle segment deletes exactly
that node when the key occurs nowhere else. -/
theorem nodesRemoveByKey_middle (A C : List Node) (n : Node)
    (hA : n.key ∉ nodesKeys A) (hC : n.key ∉ nodesKeys C) :
    nodesRemoveByKey (A ++ n :: C) n.key = A ++ C := by
  have hstep : nodesRemoveByKey (n :: C) n.key = nodesRemoveByKey C n.key := by
    simp [nodesRemoveByKey]
  rw [nodesRemoveByKey_append, nodesRemoveByKey_noop A n.key hA, hstep,
    nodesRemoveByKey_noop C n.key hC]

/-- Key-addressed insert directly at the root node. -/
theorem insertByKey_root (k : Nat) (t tx : String) (m : List String)
    (ns : List Node) (i : Nat) (nn : Node) :
    Node.insertByKey (Node.mk k t tx m ns) k i nn =
      Node.mk k t tx m (listInsertAt ns i nn) := by
  simp [Node.insertByKey]

/-- Parent lookup answers the root when the key is among the root's
direct children. -/
theorem getParent_root_hit (k : Nat) (t tx : String) (m : List String)
    (ns : List Node) (tk : Nat) (h : ns.any (fun c => c.key == tk) = true) :
    Node.getParent (Node.mk k t tx m ns) tk = some (Node.mk k t tx m ns) := by
  rw [Node.getParent]
  simp [h]

/-- Inserting at the boundary between two segments. -/
theorem listInsertAt_boundary (A B : List α) (x : α) :
    listInsertAt (A ++ B) A.length x = A ++ x :: B := by
  rw [listInsertAt, List.take_left, List.drop_left]

/-! ## Spec-side description of extract-and-reline -/

/-- Assign consecutive fresh keys to a list of nodes, as the repair's
`regenerateKey` calls do in order. -/
def assignKeys : List Node → Nat → List Node
  | [], _ => []
  | n :: ns, k => n.withKey k :: assignKeys ns (k + 1)

/-- The insert operations issued for one run's new lines: positions
`base + j, base + j + 1, …` with fresh keys `k, k + 1, …`. -/
def insertOpsSpec (rk base : Nat) : Nat → Nat → List Node → List Op
  | _, _, [] => []
  | j, k, n :: ns =>
    Op.insert rk (base + j) (n.withKey k) :: insertOpsSpec rk base (j + 1) (k + 1) ns

/--
Spec-side description of the Extract-and-Reline repair, following the
spec's words: walk the container's children; keep each maximal run of
line children untouched; replace each maximal non-line run by the line
nodes reparsed from the run's concatenated text, with fresh keys, at the
run's position; per run, one insert batch (at the live position `pos +
t.length`) followed by one removal batch.  Returns the resulting child
sequence, the batch list, and the next fresh key.
-/
def relineRun (opts : Options) (ttl : String → List Node) (rk : Nat)
    (nodes : List Node) (pos k : Nat) : List Node × List (List Op) × Nat :=
  let isNotLine : Node → Bool := fun n => n.type != opts.lineType
  let t := nodes.takeWhile (fun n => !isNotLine n)
  let after := nodes.dropWhile (fun n => !isNotLine n)
  if h : after.isEmpty then (t, [], k)
  else
    let g := after.takeWhile isNotLine
    let rest := after.dropWhile isNotLine
    let lines := ttl (String.join (g.map Node.text))
    let newLines := assignKeys lines k
    let insBatch := insertOpsSpec rk (pos + t.length) 0 k lines
    let remBatch := g.map (fun n => Op.remove n.key)
    let r := relineRun opts ttl rk rest (pos + t.length + lines.length)
      (k + lines.length)
    (t ++ newLines ++ r.1, insBatch :: remBatch :: r.2.1, r.2.2)
termination_by nodes.length
decreasing_by
  simp only [List.isEmpty_iff] at h
  exact getSuccessiveNodes_rest_lt nodes _ h

/-- Keys of `assignKeys` output, when the reparsed lines are childless:
bounded below by the starting key and above by it plus the count. -/
theorem assignKeys_keys_bounds (ls : List Node) (k : Nat)
    (hchildless : ∀ n ∈ ls, n.nodes = []) :
    ∀ x ∈ nodesKeys (assignKeys ls k), k ≤ x ∧ x < k + ls.length := by
  induction ls generalizing k with
  | nil => simp [assignKeys, nodesKeys]
  | cons n ns ih =>
    intro x hx
    have hn : n.nodes = [] := hchildless n (List.mem_cons_self n ns)
    cases n with
    | mk nk nt ntx nm nns =>
      simp only [Node.nodes] at hn
      subst hn
      simp only [assignKeys, Node.withKey, nodesKeys, Node.keys,
        List.cons_append, List.mem_cons, List.nil_append, List.mem_append] at hx
      rcases hx with hx | hx
      · subst hx
        simp
      · have := ih (k + 1) (fun m hm => hchildless m (List.mem_cons_of_mem _ hm)) x hx
        simp only [List.length_cons]
        omega

/-- Keys of `assignKeys` output are distinct, when the reparsed lines
are childless. -/
theorem assignKeys_keys_nodup (ls : List Node) (k : Nat)
    (hchildless : ∀ n ∈ ls, n.nodes = []) :
    (nodesKeys (assignKeys ls k)).Nodup := by
  induction ls generalizing k with
  | nil => simp [assignKeys, nodesKeys]
  | cons n ns ih =>
    have hn : n.nodes = [] := hchildless n (List.mem_cons_self n ns)
    cases n with
    | mk nk nt ntx nm nns =>
      simp only [Node.nodes] at hn
      subst hn
      simp only [assignKeys, Node.withKey, nodesKeys, Node.keys, List.nil_append,
        List.singleton_append, List.cons_append, List.nodup_cons]
      constructor
      · intro hmem
        have := assignKeys_keys_bounds ns (k + 1)
          (fun m hm => hchildless m (List.mem_cons_of_mem _ hm)) k hmem
        omega
      · exact ih (k + 1) (fun m hm => hchildless m (List.mem_cons_of_mem _ hm))

/-- Length of `assignKeys` output. -/
theorem assignKeys_length (ls : List Node) (k : Nat) :
    (assignKeys ls k).length = ls.length := by
  induction ls generalizing k with
  | nil => rfl
  | cons n ns ih => simp [assignKeys, ih]

/-- A key inside an element of a list with `Nodup` subtree keys occurs
in neither the part before nor the part after. -/
theorem nodup_middle_not_mem {X ks Y : List Nat}
    (h : (X ++ ks ++ Y).Nodup) {k : Nat} (hk : k ∈ ks) : k ∉ X ∧ k ∉ Y := by
  rw [List.nodup_append] at h
  obtain ⟨hXK, hY, hdisj⟩ := h
  rw [List.nodup_append] at hXK
  obtain ⟨hX, hK, hdisj2⟩ := hXK
  constructor
  · intro hkX
    exact hdisj2 hkX hk
  · intro hkY
    exact hdisj (List.mem_append_right _ hk) hkY

/-- Running the insert loop of `onlyLine`: inserting the reparsed lines
one after the other right before the offending run, regenerating a fresh
key for each. -/
theorem insertLines_run (rk : Nat) (rt rtx : String) (rm : List String)
    (base : Nat) (cls : List Node) :
    ∀ (j : Nat) (A B : List Node) (ed : Editor),
      ed.document = Node.mk rk rt rtx rm (A ++ B) →
      A.length = base + j →
      (insertLines rk base j cls ed).document =
          Node.mk rk rt rtx rm (A ++ assignKeys cls ed.nextKey ++ B) ∧
        (insertLines rk base j cls ed).nextKey = ed.nextKey + cls.length ∧
        (insertLines rk base j cls ed).current =
          ed.current ++ insertOpsSpec rk base j ed.nextKey cls ∧
        (insertLines rk base j cls ed).batches = ed.batches := by
  induction cls with
  | nil =>
    intro j A B ed hdoc hlen
    simp [insertLines, assignKeys, insertOpsSpec, hdoc]
  | cons cl cls ih =>
    intro j A B ed hdoc hlen
    have hunfold : insertLines rk base j (cl :: cls) ed =
        insertLines rk base (j + 1) cls
          (({ ed with nextKey := ed.nextKey + 1 : Editor}).insertNodeByKey
            rk (base + j) (cl.withKey ed.nextKey)) := by
      rw [insertLines]
    rw [hunfold]
    have hdoc2 : (({ ed with nextKey := ed.nextKey + 1 : Editor}).insertNodeByKey
        rk (base + j) (cl.withKey ed.nextKey)).document =
        Node.mk rk rt rtx rm ((A ++ [cl.withKey ed.nextKey]) ++ B) := by
      simp only [Editor.insertNodeByKey, hdoc, insertByKey_root]
      rw [← hlen, listInsertAt_boundary]
      simp
    have hih := ih (j + 1) (A ++ [cl.withKey ed.nextKey]) B
      (({ ed with nextKey := ed.nextKey + 1 : Editor}).insertNodeByKey
        rk (base + j) (cl.withKey ed.nextKey))
      hdoc2 (by simp; omega)
    obtain ⟨hih1, hih2, hih3, hih4⟩ := hih
    refine ⟨?_, ?_, ?_, ?_⟩
    · rw [hih1, assignKeys]
      simp [Editor.insertNodeByKey]
    · rw [hih2]
      simp only [Editor.insertNodeByKey, List.length_cons]
      omega
    · rw [hih3, insertOpsSpec]
      simp [Editor.insertNodeByKey]
    · rw [hih4]
      simp [Editor.insertNodeByKey]

/-- Running the removal loop of `onlyLine`: removing the offending run's
nodes by key deletes exactly those children when all subtree keys are
distinct. -/
theorem removeFold_run (rk : Nat) (rt rtx : String) (rm : List String) :
    ∀ (g A B : List Node) (ed : Editor),
      ed.document = Node.mk rk rt rtx rm (A ++ g ++ B) →
      (nodesKeys (A ++ g ++ B)).Nodup →
      (g.foldl (fun ed3 n => ed3.removeNodeByKey n.key) ed).document =
          Node.mk rk rt rtx rm (A ++ B) ∧
        (g.foldl (fun ed3 n => ed3.removeNodeByKey n.key) ed).nextKey =
          ed.nextKey ∧
        (g.foldl (fun ed3 n => ed3.removeNodeByKey n.key) ed).current =
          ed.current ++ g.map (fun n => Op.remove n.key) ∧
        (g.foldl (fun ed3 n => ed3.removeNodeByKey n.key) ed).batches =
          ed.batches := by
  intro g
  induction g with
  | nil =>
    intro A B ed hdoc _
    simp [hdoc]
  | cons n g ih =>
    intro A B ed hdoc hnodup
    have hkeys : nodesKeys (A ++ (n :: g) ++ B) =
        nodesKeys A ++ n.keys ++ (nodesKeys g ++ nodesKeys B) := by
      rw [nodesKeys_append, nodesKeys_append]
      simp [nodesKeys, List.append_assoc]
    rw [hkeys] at hnodup
    have hnk := nodup_middle_not_mem hnodup (key_mem_keys n)
    have hA : n.key ∉ nodesKeys A := hnk.1
    have hGB : n.key ∉ nodesKeys (g ++ B) := by
      rw [nodesKeys_append, List.mem_append]
      intro hc
      rcases hc with hc | hc
      · exact hnk.2 (List.mem_append_left _ hc)
      · exact hnk.2 (List.mem_append_right _ hc)
    have hdoc2 : (ed.removeNodeByKey n.key).document =
        Node.mk rk rt rtx rm (A ++ g ++ B) := by
      simp only [Editor.removeNodeByKey, hdoc, Node.removeByKey]
      have : A ++ (n :: g) ++ B = A ++ n :: (g ++ B) := by simp
      rw [this, nodesRemoveByKey_middle A (g ++ B) n hA hGB]
      simp [List.append_assoc]
    have hnodup2 : (nodesKeys (A ++ g ++ B)).Nodup := by
      have hsub : List.Sublist (nodesKeys (A ++ g ++ B))
          (nodesKeys A ++ n.keys ++ (nodesKeys g ++ nodesKeys B)) := by
        rw [nodesKeys_append, nodesKeys_append]
        simp only [List.append_assoc]
        apply List.Sublist.append_left
        exact List.sublist_append_right _ _
      exact hnodup.sublist hsub
    have hih := ih A B (ed.removeNodeByKey n.key) hdoc2 hnodup2
    obtain ⟨h1, h2, h3, h4⟩ := hih
    simp only [List.foldl_cons]
    refine ⟨h1, ?_, ?_, ?_⟩
    · rw [h2]
      simp [Editor.removeNodeByKey]
    · rw [h3]
      simp [Editor.removeNodeByKey]
    · rw [h4]
      simp [Editor.removeNodeByKey]

/-- Two occurrences of a key on the two sides of an append contradict
`Nodup`. -/
theorem nodup_append_not_both {X Y : List Nat} (h : (X ++ Y).Nodup) {k : Nat}
    (h1 : k ∈ X) (h2 : k ∈ Y) : False := by
  rw [List.nodup_append] at h
  exact h.2.2 h1 h2

/-- Field equations of `withoutNormalizing`: the callback runs on an
empty op list, and its collected ops are appended as one batch. -/
theorem withoutNormalizing_fields (e : Editor) (fn : Editor → Editor) :
    (e.withoutNormalizing fn).document = (fn { e with current := [] }).document ∧
    (e.withoutNormalizing fn).nextKey = (fn { e with current := [] }).nextKey ∧
    (e.withoutNormalizing fn).current = e.current ∧
    (e.withoutNormalizing fn).batches =
      (fn { e with current := [] }).batches ++
        [(fn { e with current := [] }).current] := by
  simp [Editor.withoutNormalizing]

/-- Splicing a block of fresh distinct keys between two halves of a
`Nodup` key list keeps it `Nodup`. -/
theorem nodup_insert_middle {X Y N : List Nat} (h : (X ++ Y).Nodup)
    (hN : N.Nodup) (hX : ∀ x ∈ N, x ∉ X) (hY : ∀ x ∈ N, x ∉ Y) :
    ((X ++ N) ++ Y).Nodup := by
  rw [List.nodup_append] at h
  obtain ⟨h1, h2, h3⟩ := h
  rw [List.nodup_append, List.nodup_append]
  refine ⟨⟨h1, hN, ?_⟩, h2, ?_⟩
  · intro a ha hN2
    exact hX a hN2 ha
  · intro a ha hY2
    rcases List.mem_append.mp ha with ha | ha
    · exact h3 ha hY2
    · exact hY a ha hY2

/-- Processing a single non-line run with `onlyLineGroupStep`: the run is
replaced in place by the freshly keyed reparsed lines, one insert batch
and one removal batch are recorded, and the fresh-key counter advances by
the number of new lines. -/
theorem onlyLineGroupStep_run (opts : Options) (ttl : String → List Node)
    (Httl : ∀ s, ∀ n ∈ ttl s, n.nodes = [])
    (rk : Nat) (rt rtx : String) (rm : List String)
    (P t g B : List Node) (first : Node) (g' : List Node)
    (hgshape : g = first :: g')
    (ed : Editor)
    (hdoc : ed.document = Node.mk rk rt rtx rm (P ++ t ++ g ++ B))
    (hnodup : (nodesKeys (P ++ t ++ g ++ B)).Nodup)
    (hfresh : ∀ x ∈ nodesKeys (P ++ t ++ g ++ B), x < ed.nextKey) :
    (onlyLineGroupStep opts ttl ed g).document =
        Node.mk rk rt rtx rm ((P ++ t ++
          assignKeys (ttl (String.join (g.map Node.text))) ed.nextKey) ++ B) ∧
      (onlyLineGroupStep opts ttl ed g).nextKey =
        ed.nextKey + (ttl (String.join (g.map Node.text))).length ∧
      (onlyLineGroupStep opts ttl ed g).batches = ed.batches ++
        [insertOpsSpec rk ((P ++ t).length) 0 ed.nextKey
          (ttl (String.join (g.map Node.text))),
         g.map (fun n => Op.remove n.key)] ∧
      (onlyLineGroupStep opts ttl ed g).current = ed.current := by
  subst hgshape
  have hmem : first ∈ P ++ t ++ (first :: g') ++ B := by simp
  have hparent : ed.document.getParent first.key =
      some (Node.mk rk rt rtx rm (P ++ t ++ (first :: g') ++ B)) := by
    rw [hdoc]
    apply getParent_root_hit
    exact List.any_eq_true.mpr ⟨first, hmem, by simp⟩
  have hshape : P ++ t ++ (first :: g') ++ B = (P ++ t) ++ first :: (g' ++ B) := by
    simp
  have hPTdisj : ∀ y ∈ P ++ t, y.key ≠ first.key := by
    intro y hy he
    have hyk : y.key ∈ nodesKeys (P ++ t) :=
      keys_subset_of_mem hy y.key (key_mem_keys y)
    have hfk : first.key ∈ nodesKeys ((first :: g') ++ B) :=
      keys_subset_of_mem (by simp) first.key (key_mem_keys first)
    have hre : nodesKeys (P ++ t ++ (first :: g') ++ B) =
        nodesKeys (P ++ t) ++ nodesKeys ((first :: g') ++ B) := by
      rw [show P ++ t ++ (first :: g') ++ B = (P ++ t) ++ ((first :: g') ++ B) by
        simp, nodesKeys_append]
    rw [hre] at hnodup
    exact nodup_append_not_both hnodup hyk (he ▸ hfk)
  have hidx : idxOf (P ++ t ++ (first :: g') ++ B) first = (P ++ t).length := by
    rw [hshape]
    exact idxOf_append_cons (P ++ t) (g' ++ B) first hPTdisj
  -- run the insert batch
  have hdoc0 : ({ ed with current := ([] : List Op) }).document =
      Node.mk rk rt rtx rm ((P ++ t) ++ ((first :: g') ++ B)) := by
    show ed.document = _
    rw [hdoc]
    simp [List.append_assoc]
  have hins := insertLines_run rk rt rtx rm ((P ++ t).length)
    (ttl (String.join ((first :: g').map Node.text))) 0 (P ++ t)
    ((first :: g') ++ B) { ed with current := ([] : List Op) } hdoc0 (by simp)
  obtain ⟨hins1, hins2, hins3, hins4⟩ := hins
  -- run the removal batch
  have hdoc1 : ({ insertLines rk ((P ++ t).length) 0
      (ttl (String.join ((first :: g').map Node.text)))
      { ed with current := ([] : List Op) } with
        current := ([] : List Op) }).document =
      Node.mk rk rt rtx rm ((P ++ t ++
        assignKeys (ttl (String.join ((first :: g').map Node.text))) ed.nextKey)
        ++ (first :: g') ++ B) := by
    show (insertLines rk ((P ++ t).length) 0
      (ttl (String.join ((first :: g').map Node.text)))
      { ed with current := ([] : List Op) }).document = _
    rw [hins1]
    simp [List.append_assoc]
  -- the step unfolds to the two suppressed-renormalization batches
  have hstep : onlyLineGroupStep opts ttl ed (first :: g') =
      (ed.withoutNormalizing (insertLines rk ((P ++ t).length) 0
        (ttl (String.join ((first :: g').map Node.text))))).withoutNormalizing
        (fun ed2 =>
          (first :: g').foldl (fun ed3 n => ed3.removeNodeByKey n.key) ed2) := by
    have hkeyred : (Node.mk rk rt rtx rm (P ++ t ++ (first :: g') ++ B)).key = rk :=
      rfl
    have hnodesred : (Node.mk rk rt rtx rm (P ++ t ++ (first :: g') ++ B)).nodes =
        P ++ t ++ (first :: g') ++ B := rfl
    rw [onlyLineGroupStep]
    simp only [List.head?_cons, hparent, hkeyred, hnodesred, hidx]
  -- distinctness of keys after the insert batch
  have hchild : ∀ n ∈ ttl (String.join ((first :: g').map Node.text)),
      n.nodes = [] := Httl _
  have heq : nodesKeys (P ++ t ++ (first :: g') ++ B) =
      nodesKeys (P ++ t) ++ (nodesKeys (first :: g') ++ nodesKeys B) := by
    simp only [nodesKeys_append, nodesKeys, List.append_assoc, List.cons_append]
  have hfresh2 : ∀ x ∈ nodesKeys (P ++ t) ++
      (nodesKeys (first :: g') ++ nodesKeys B), x < ed.nextKey := by
    intro x hx
    apply hfresh
    rw [heq]
    exact hx
  have hnodup2 : (nodesKeys (P ++ t) ++
      (nodesKeys (first :: g') ++ nodesKeys B)).Nodup := by
    rw [heq] at hnodup
    exact hnodup
  have hnewBounds := assignKeys_keys_bounds
    (ttl (String.join ((first :: g').map Node.text))) ed.nextKey hchild
  have hnewNodup := assignKeys_keys_nodup
    (ttl (String.join ((first :: g').map Node.text))) ed.nextKey hchild
  have hnodupIns : (nodesKeys ((P ++ t ++
      assignKeys (ttl (String.join ((first :: g').map Node.text))) ed.nextKey)
      ++ (first :: g') ++ B)).Nodup := by
    have heq2 : nodesKeys ((P ++ t ++
        assignKeys (ttl (String.join ((first :: g').map Node.text))) ed.nextKey)
        ++ (first :: g') ++ B) =
        (nodesKeys (P ++ t) ++ nodesKeys (assignKeys
          (ttl (String.join ((first :: g').map Node.text))) ed.nextKey)) ++
        (nodesKeys (first :: g') ++ nodesKeys B) := by
      simp only [nodesKeys_append, nodesKeys, List.append_assoc, List.cons_append]
    rw [heq2]
    apply nodup_insert_middle hnodup2 hnewNodup
    · intro x hx hmem
      have hb := (hnewBounds x hx).1
      have hlt := hfresh2 x (List.mem_append_left _ hmem)
      omega
    · intro x hx hmem
      have hb := (hnewBounds x hx).1
      have hlt := hfresh2 x (List.mem_append_right _ hmem)
      omega
  -- field equations of the two batch scopes
  have hE := withoutNormalizing_fields ed
    (insertLines rk ((P ++ t).length) 0
      (ttl (String.join ((first :: g').map Node.text))))
  obtain ⟨hEdoc, hEkey, hEcur, hEbat⟩ := hE
  have hF := withoutNormalizing_fields
    (ed.withoutNormalizing (insertLines rk ((P ++ t).length) 0
      (ttl (String.join ((first :: g').map Node.text)))))
    (fun ed2 => (first :: g').foldl (fun ed3 n => ed3.removeNodeByKey n.key) ed2)
  obtain ⟨hFdoc, hFkey, hFcur, hFbat⟩ := hF
  -- run the removal batch on the post-insert editor
  have hdocR : ({ ed.withoutNormalizing (insertLines rk ((P ++ t).length) 0
      (ttl (String.join ((first :: g').map Node.text)))) with
        current := ([] : List Op) }).document =
      Node.mk rk rt rtx rm ((P ++ t ++
        assignKeys (ttl (String.join ((first :: g').map Node.text))) ed.nextKey)
        ++ (first :: g') ++ B) := by
    show (ed.withoutNormalizing (insertLines rk ((P ++ t).length) 0
      (ttl (String.join ((first :: g').map Node.text))))).document = _
    rw [hEdoc, hins1]
    simp [List.append_assoc]
  have hrem := removeFold_run rk rt rtx rm (first :: g')
    (P ++ t ++ assignKeys (ttl (String.join ((first :: g').map Node.text)))
      ed.nextKey) B
    { ed.withoutNormalizing (insertLines rk ((P ++ t).length) 0
        (ttl (String.join ((first :: g').map Node.text)))) with
      current := ([] : List Op) }
    hdocR hnodupIns
  obtain ⟨hrem1, hrem2, hrem3, hrem4⟩ := hrem
  rw [hstep]
  refine ⟨?_, ?_, ?_, ?_⟩
  · rw [hFdoc]
    exact hrem1
  · rw [hFkey, hrem2]
    show (ed.withoutNormalizing (insertLines rk ((P ++ t).length) 0
      (ttl (String.join ((first :: g').map Node.text))))).nextKey = _
    rw [hEkey, hins2]
  · rw [hFbat, hrem4, hrem3]
    show (ed.withoutNormalizing (insertLines rk ((P ++ t).length) 0
        (ttl (String.join ((first :: g').map Node.text))))).batches ++
        [([] : List Op) ++ (first :: g').map (fun n => Op.remove n.key)] = _
    rw [hEbat, hins4, hins3]
    simp
  · rw [hFcur, hEcur]

/-- Unfolding `relineRun` on a suffix with no non-line node: everything is kept,
no batches are issued. -/
theorem relineRun_nil_case (opts : Options) (ttl : String → List Node)
    (rk : Nat) (nodes : List Node) (pos k : Nat)
    (h : nodes.dropWhile (fun n => !(n.type != opts.lineType)) = []) :
    relineRun opts ttl rk nodes pos k =
      (nodes.takeWhile (fun n => !(n.type != opts.lineType)), [], k) := by
  rw [relineRun]
  simp [h]

/-- Unfolding `relineRun` on a suffix holding a non-line run: the leading line run
is kept, the first non-line run is replaced by the freshly keyed
reparsed lines with an insert and a removal batch, and the rest is
processed recursively. -/
theorem relineRun_cons_case (opts : Options) (ttl : String → List Node)
    (rk : Nat) (nodes : List Node) (pos k : Nat)
    (h : nodes.dropWhile (fun n => !(n.type != opts.lineType)) ≠ []) :
    relineRun opts ttl rk nodes pos k =
      ((nodes.takeWhile (fun n => !(n.type != opts.lineType))) ++
        assignKeys (ttl (String.join
          (((nodes.dropWhile (fun n => !(n.type != opts.lineType))).takeWhile
            (fun n => n.type != opts.lineType)).map Node.text))) k ++
        (relineRun opts ttl rk
          ((nodes.dropWhile (fun n => !(n.type != opts.lineType))).dropWhile
            (fun n => n.type != opts.lineType))
          (pos + (nodes.takeWhile (fun n => !(n.type != opts.lineType))).length +
            (ttl (String.join
              (((nodes.dropWhile (fun n => !(n.type != opts.lineType))).takeWhile
                (fun n => n.type != opts.lineType)).map Node.text))).length)
          (k + (ttl (String.join
            (((nodes.dropWhile (fun n => !(n.type != opts.lineType))).takeWhile
              (fun n => n.type != opts.lineType)).map Node.text))).length)).1,
       insertOpsSpec rk
          (pos + (nodes.takeWhile (fun n => !(n.type != opts.lineType))).length)
          0 k
          (ttl (String.join
            (((nodes.dropWhile (fun n => !(n.type != opts.lineType))).takeWhile
              (fun n => n.type != opts.lineType)).map Node.text))) ::
        ((nodes.dropWhile (fun n => !(n.type != opts.lineType))).takeWhile
          (fun n => n.type != opts.lineType)).map (fun n => Op.remove n.key) ::
        (relineRun opts ttl rk
          ((nodes.dropWhile (fun n => !(n.type != opts.lineType))).dropWhile
            (fun n => n.type != opts.lineType))
          (pos + (nodes.takeWhile (fun n => !(n.type != opts.lineType))).length +
            (ttl (String.join
              (((nodes.dropWhile (fun n => !(n.type != opts.lineType))).takeWhile
                (fun n => n.type != opts.lineType)).map Node.text))).length)
          (k + (ttl (String.join
            (((nodes.dropWhile (fun n => !(n.type != opts.lineType))).takeWhile
              (fun n => n.type != opts.lineType)).map Node.text))).length)).2.1,
       (relineRun opts ttl rk
          ((nodes.dropWhile (fun n => !(n.type != opts.lineType))).dropWhile
            (fun n => n.type != opts.lineType))
          (pos + (nodes.takeWhile (fun n => !(n.type != opts.lineType))).length +
            (ttl (String.join
              (((nodes.dropWhile (fun n => !(n.type != opts.lineType))).takeWhile
                (fun n => n.type != opts.lineType)).map Node.text))).length)
          (k + (ttl (String.join
            (((nodes.dropWhile (fun n => !(n.type != opts.lineType))).takeWhile
              (fun n => n.type != opts.lineType)).map Node.text))).length)).2.2) := by
  rw [relineRun]
  simp [h]

set_option maxHeartbeats 2000000

/--
Main characterization of the group fold of `onlyLine`: processing the
groups of a suffix `rest` of the container's children, with the live
children being `P ++ rest`, realizes exactly the spec-side `relineRun`
with live position `P.length` — child sequence, batch trace and fresh
keys all included.
-/
theorem onlyLine_fold_run (opts : Options) (ttl : String → List Node)
    (Httl : ∀ s, ∀ n ∈ ttl s, n.nodes = [])
    (rk : Nat) (rt rtx : String) (rm : List String) :
    ∀ (rest : List Node) (P : List Node) (ed : Editor),
      ed.document = Node.mk rk rt rtx rm (P ++ rest) →
      (nodesKeys (P ++ rest)).Nodup →
      (∀ x ∈ nodesKeys (P ++ rest), x < ed.nextKey) →
      ((getSuccessiveNodes rest
          (fun n => n.type != opts.lineType)).foldl
          (onlyLineGroupStep opts ttl) ed).document =
          Node.mk rk rt rtx rm
            (P ++ (relineRun opts ttl rk rest P.length ed.nextKey).1) ∧
        ((getSuccessiveNodes rest
          (fun n => n.type != opts.lineType)).foldl
          (onlyLineGroupStep opts ttl) ed).nextKey =
          (relineRun opts ttl rk rest P.length ed.nextKey).2.2 ∧
        ((getSuccessiveNodes rest
          (fun n => n.type != opts.lineType)).foldl
          (onlyLineGroupStep opts ttl) ed).batches =
          ed.batches ++ (relineRun opts ttl rk rest P.length ed.nextKey).2.1 ∧
        ((getSuccessiveNodes rest
          (fun n => n.type != opts.lineType)).foldl
          (onlyLineGroupStep opts ttl) ed).current = ed.current := by
  suffices h : ∀ (N : Nat) (rest : List Node), rest.length = N →
      ∀ (P : List Node) (ed : Editor),
      ed.document = Node.mk rk rt rtx rm (P ++ rest) →
      (nodesKeys (P ++ rest)).Nodup →
      (∀ x ∈ nodesKeys (P ++ rest), x < ed.nextKey) →
      ((getSuccessiveNodes rest
          (fun n => n.type != opts.lineType)).foldl
          (onlyLineGroupStep opts ttl) ed).document =
          Node.mk rk rt rtx rm
            (P ++ (relineRun opts ttl rk rest P.length ed.nextKey).1) ∧
        ((getSuccessiveNodes rest
          (fun n => n.type != opts.lineType)).foldl
          (onlyLineGroupStep opts ttl) ed).nextKey =
          (relineRun opts ttl rk rest P.length ed.nextKey).2.2 ∧
        ((getSuccessiveNodes rest
          (fun n => n.type != opts.lineType)).foldl
          (onlyLineGroupStep opts ttl) ed).batches =
          ed.batches ++ (relineRun opts ttl rk rest P.length ed.nextKey).2.1 ∧
        ((getSuccessiveNodes rest
          (fun n => n.type != opts.lineType)).foldl
          (onlyLineGroupStep opts ttl) ed).current = ed.current by
    intro rest
    exact h rest.length rest rfl
  intro N
  induction N using Nat.strong_induction_on with
  | _ N ih =>
    intro rest hlen P ed hdoc hnodup hfresh
    by_cases hemp : rest.dropWhile
        (fun n => !(n.type != opts.lineType)) = []
    · -- no non-line node: no group, nothing happens
      rw [getSuccessiveNodes_nil_case rest _ hemp, List.foldl_nil,
        relineRun_nil_case opts ttl rk rest P.length ed.nextKey hemp]
      have htake : rest.takeWhile (fun n => !(n.type != opts.lineType)) = rest := by
        have hsplit := List.takeWhile_append_dropWhile
          (fun n => !(n.type != opts.lineType)) rest
        rw [hemp, List.append_nil] at hsplit
        exact hsplit
      rw [htake]
      exact ⟨hdoc, rfl, by simp, rfl⟩
    · -- decompose `rest` into leading lines, first run, and the tail
      rw [getSuccessiveNodes_cons_case rest _ hemp, List.foldl_cons]
      obtain ⟨first, g', hgshape⟩ := List.exists_cons_of_ne_nil
        (takeWhile_dropWhile_ne_nil rest _ hemp)
      have hsplit1 : rest = rest.takeWhile (fun n => !(n.type != opts.lineType)) ++
          rest.dropWhile (fun n => !(n.type != opts.lineType)) :=
        (List.takeWhile_append_dropWhile _ _).symm
      have hsplit2 : rest.dropWhile (fun n => !(n.type != opts.lineType)) =
          (rest.dropWhile (fun n => !(n.type != opts.lineType))).takeWhile
            (fun n => n.type != opts.lineType) ++
          (rest.dropWhile (fun n => !(n.type != opts.lineType))).dropWhile
            (fun n => n.type != opts.lineType) :=
        (List.takeWhile_append_dropWhile _ _).symm
      -- abbreviations (purely textual): t, g, B, cls, newL
      have hPrest : P ++ rest =
          P ++ rest.takeWhile (fun n => !(n.type != opts.lineType)) ++
          (rest.dropWhile (fun n => !(n.type != opts.lineType))).takeWhile
            (fun n => n.type != opts.lineType) ++
          (rest.dropWhile (fun n => !(n.type != opts.lineType))).dropWhile
            (fun n => n.type != opts.lineType) := by
        conv_lhs => rw [hsplit1, hsplit2]
        simp [List.append_assoc]
      have hdoc' : ed.document = Node.mk rk rt rtx rm
          (P ++ rest.takeWhile (fun n => !(n.type != opts.lineType)) ++
          (rest.dropWhile (fun n => !(n.type != opts.lineType))).takeWhile
            (fun n => n.type != opts.lineType) ++
          (rest.dropWhile (fun n => !(n.type != opts.lineType))).dropWhile
            (fun n => n.type != opts.lineType)) := by
        rw [hdoc, ← hPrest]
      have hnodup' : (nodesKeys
          (P ++ rest.takeWhile (fun n => !(n.type != opts.lineType)) ++
          (rest.dropWhile (fun n => !(n.type != opts.lineType))).takeWhile
            (fun n => n.type != opts.lineType) ++
          (rest.dropWhile (fun n => !(n.type != opts.lineType))).dropWhile
            (fun n => n.type != opts.lineType))).Nodup := by
        rw [← hPrest]
        exact hnodup
      have hfresh' : ∀ x ∈ nodesKeys
          (P ++ rest.takeWhile (fun n => !(n.type != opts.lineType)) ++
          (rest.dropWhile (fun n => !(n.type != opts.lineType))).takeWhile
            (fun n => n.type != opts.lineType) ++
          (rest.dropWhile (fun n => !(n.type != opts.lineType))).dropWhile
            (fun n => n.type != opts.lineType)), x < ed.nextKey := by
        rw [← hPrest]
        exact hfresh
      have hstep := onlyLineGroupStep_run opts ttl Httl rk rt rtx rm
        P (rest.takeWhile (fun n => !(n.type != opts.lineType)))
        ((rest.dropWhile (fun n => !(n.type != opts.lineType))).takeWhile
          (fun n => n.type != opts.lineType))
        ((rest.dropWhile (fun n => !(n.type != opts.lineType))).dropWhile
          (fun n => n.type != opts.lineType))
        first g' hgshape ed hdoc' hnodup' hfresh'
      obtain ⟨hs1, hs2, hs3, hs4⟩ := hstep
      -- abbreviate the decomposition
      set t := rest.takeWhile (fun n => !(n.type != opts.lineType)) with htdef
      set d := rest.dropWhile (fun n => !(n.type != opts.lineType)) with hddef
      set g := d.takeWhile (fun n => n.type != opts.lineType) with hgdef
      set B := d.dropWhile (fun n => n.type != opts.lineType) with hBdef
      set cls := ttl (String.join (g.map Node.text)) with hclsdef
      have hemp2 : rest.dropWhile (fun n => !(n.type != opts.lineType)) ≠ [] := by
        rw [← hddef]
        exact hemp
      have hlt : B.length < N := by
        have h1 : B.length < rest.length := by
          rw [hBdef, hddef]
          exact getSuccessiveNodes_rest_lt rest _ hemp2
        omega
      -- key bookkeeping for the recursive call
      have hchild : ∀ n ∈ cls, n.nodes = [] := by
        rw [hclsdef]
        exact Httl _
      have hbounds := assignKeys_keys_bounds cls ed.nextKey hchild
      have hnewNodup := assignKeys_keys_nodup cls ed.nextKey hchild
      have horig : nodesKeys (P ++ t ++ g ++ B) =
          nodesKeys (P ++ t) ++ (nodesKeys g ++ nodesKeys B) := by
        simp only [nodesKeys_append, List.append_assoc]
      have hnodupO : (nodesKeys (P ++ t) ++
          (nodesKeys g ++ nodesKeys B)).Nodup := by
        rw [← horig]
        exact hnodup'
      have hfreshO : ∀ x ∈ nodesKeys (P ++ t) ++ (nodesKeys g ++ nodesKeys B),
          x < ed.nextKey := by
        intro x hx
        apply hfresh'
        rw [horig]
        exact hx
      have hXY : (nodesKeys (P ++ t) ++ nodesKeys B).Nodup := by
        refine hnodupO.sublist ?_
        apply List.Sublist.append_left
        exact List.sublist_append_right _ _
      have heqA : nodesKeys ((P ++ t ++ assignKeys cls ed.nextKey) ++ B) =
          (nodesKeys (P ++ t) ++ nodesKeys (assignKeys cls ed.nextKey)) ++
            nodesKeys B := by
        simp only [nodesKeys_append, List.append_assoc]
      have hnodupIH : (nodesKeys ((P ++ t ++ assignKeys cls ed.nextKey) ++ B)).Nodup := by
        rw [heqA]
        apply nodup_insert_middle hXY hnewNodup
        · intro x hx hmem
          have hb := (hbounds x hx).1
          have hlt2 := hfreshO x (List.mem_append_left _ hmem)
          omega
        · intro x hx hmem
          have hb := (hbounds x hx).1
          have hlt2 := hfreshO x
            (List.mem_append_right _ (List.mem_append_right _ hmem))
          omega
      have hfreshIH : ∀ x ∈ nodesKeys ((P ++ t ++ assignKeys cls ed.nextKey) ++ B),
          x < ed.nextKey + cls.length := by
        intro x hx
        rw [heqA] at hx
        rcases List.mem_append.mp hx with hx | hx
        · rcases List.mem_append.mp hx with hx | hx
          · have hlt2 := hfreshO x (List.mem_append_left _ hx)
            omega
          · exact (hbounds x hx).2
        · have hlt2 := hfreshO x
            (List.mem_append_right _ (List.mem_append_right _ hx))
          omega
      have hfreshIH2 : ∀ x ∈ nodesKeys ((P ++ t ++ assignKeys cls ed.nextKey) ++ B),
          x < (onlyLineGroupStep opts ttl ed g).nextKey := by
        rw [hs2]
        exact hfreshIH
      -- recursive call on the untouched tail
      have hIH := ih B.length hlt B rfl (P ++ t ++ assignKeys cls ed.nextKey)
        (onlyLineGroupStep opts ttl ed g) hs1 hnodupIH hfreshIH2
      obtain ⟨hi1, hi2, hi3, hi4⟩ := hIH
      have hplen : (P ++ t ++ assignKeys cls ed.nextKey).length =
          P.length + t.length + cls.length := by
        simp only [List.length_append, assignKeys_length]
      rw [hplen] at hi1 hi2 hi3
      rw [hs2] at hi1 hi2 hi3
      -- the spec side takes one matching recursion step
      have hcons := relineRun_cons_case opts ttl rk rest P.length ed.nextKey hemp2
      rw [← hddef, ← hgdef, ← hBdef, ← htdef, ← hclsdef] at hcons
      rw [hcons]
      refine ⟨?_, ?_, ?_, ?_⟩
      · rw [hi1]
        simp [List.append_assoc]
      · rw [hi2]
      · rw [hi3, hs3]
        simp [List.append_assoc, List.length_append]
      · rw [hi4, hs4]

/-! ## Operation-trace shape lemmas -/

/-- Rekeying with `withKey` does not touch marks. -/
theorem withKey_marks (n : Node) (k : Nat) : (n.withKey k).marks = n.marks := by
  cases n
  rfl

/-- Field equations of `moveNodeByKey`: one move operation is recorded,
batches and the key counter are untouched. -/
theorem moveNodeByKey_fields (e : Editor) (k pk i : Nat) :
    (e.moveNodeByKey k pk i).batches = e.batches ∧
    (e.moveNodeByKey k pk i).nextKey = e.nextKey ∧
    (e.moveNodeByKey k pk i).current = e.current ++ [Op.move k pk i] := by
  cases h : e.document.findByKey k <;> simp [Editor.moveNodeByKey, h]

/-- Operations recorded by the move loop: exactly one move per line. -/
theorem moveLines_ops (ck : Nat) :
    ∀ (g : List Node) (i : Nat) (ed : Editor), ∃ s,
      (moveLines ck i g ed).current = ed.current ++ s ∧
      s.length = g.length ∧
      (∀ op ∈ s, ∃ a b c, op = Op.move a b c) ∧
      (moveLines ck i g ed).batches = ed.batches ∧
      (moveLines ck i g ed).nextKey = ed.nextKey := by
  intro g
  induction g with
  | nil =>
    intro i ed
    exact ⟨[], by simp [moveLines], rfl, by simp, rfl, rfl⟩
  | cons l g ih =>
    intro i ed
    obtain ⟨s, hs1, hs2, hs3, hs4, hs5⟩ := ih (i + 1) (ed.moveNodeByKey l.key ck i)
    obtain ⟨hm1, hm2, hm3⟩ := moveNodeByKey_fields ed l.key ck i
    refine ⟨Op.move l.key ck i :: s, ?_, by simp [hs2], ?_, ?_, ?_⟩
    · rw [moveLines, hs1, hm3]
      simp
    · intro op hop
      rcases List.mem_cons.mp hop with hop | hop
      · exact ⟨l.key, ck, i, hop⟩
      · exact hs3 op hop
    · rw [moveLines, hs4, hm1]
    · rw [moveLines, hs5, hm2]

/-- Operations recorded by the insert loop: exactly one insert per
reparsed line, each inserting a (rekeyed) reparsed line. -/
theorem insertLines_ops (pk base : Nat) :
    ∀ (cls : List Node) (j : Nat) (ed : Editor), ∃ s,
      (insertLines pk base j cls ed).current = ed.current ++ s ∧
      s.length = cls.length ∧
      (∀ op ∈ s, ∃ pk2 i n cl, op = Op.insert pk2 i n ∧ cl ∈ cls ∧
        n.marks = cl.marks) ∧
      (insertLines pk base j cls ed).batches = ed.batches := by
  intro cls
  induction cls with
  | nil =>
    intro j ed
    exact ⟨[], by simp [insertLines], rfl, by simp, rfl⟩
  | cons cl cls ih =>
    intro j ed
    obtain ⟨s, hs1, hs2, hs3, hs4⟩ := ih (j + 1)
      (({ ed with nextKey := ed.nextKey + 1 : Editor}).insertNodeByKey
        pk (base + j) (cl.withKey ed.nextKey))
    refine ⟨Op.insert pk (base + j) (cl.withKey ed.nextKey) :: s, ?_,
      by simp [hs2], ?_, ?_⟩
    · rw [insertLines, hs1]
      simp [Editor.insertNodeByKey]
    · intro op hop
      rcases List.mem_cons.mp hop with hop | hop
      · exact ⟨pk, base + j, cl.withKey ed.nextKey, cl, hop,
          List.mem_cons_self cl cls, withKey_marks cl ed.nextKey⟩
      · obtain ⟨pk2, i, n, cl2, h1, h2, h3⟩ := hs3 op hop
        exact ⟨pk2, i, n, cl2, h1, List.mem_cons_of_mem cl h2, h3⟩
    · rw [insertLines, hs4]
      simp [Editor.insertNodeByKey]

/-- Operations recorded by the removal loop: exactly one removal per node
of the group. -/
theorem removeFold_ops :
    ∀ (g : List Node) (ed : Editor), ∃ s,
      (g.foldl (fun ed3 n => ed3.removeNodeByKey n.key) ed).current =
        ed.current ++ s ∧
      s.length = g.length ∧
      (∀ op ∈ s, ∃ k2, op = Op.remove k2) ∧
      (g.foldl (fun ed3 n => ed3.removeNodeByKey n.key) ed).batches =
        ed.batches ∧
      (g.foldl (fun ed3 n => ed3.removeNodeByKey n.key) ed).nextKey =
        ed.nextKey := by
  intro g
  induction g with
  | nil =>
    intro ed
    exact ⟨[], by simp, rfl, by simp, rfl, rfl⟩
  | cons n g ih =>
    intro ed
    obtain ⟨s, hs1, hs2, hs3, hs4, hs5⟩ := ih (ed.removeNodeByKey n.key)
    refine ⟨Op.remove n.key :: s, ?_, by simp [hs2], ?_, ?_, ?_⟩
    · rw [List.foldl_cons, hs1]
      simp [Editor.removeNodeByKey]
    · intro op hop
      rcases List.mem_cons.mp hop with hop | hop
      · exact ⟨n.key, hop⟩
      · exact hs3 op hop
    · rw [List.foldl_cons, hs4]
      simp [Editor.removeNodeByKey]
    · rw [List.foldl_cons, hs5]
      simp [Editor.removeNodeByKey]

/-- Hypothesis-free operation bound and shape for one extract-and-reline
group step: the live op list is restored, at most two batches are added,
holding only inserts of (rekeyed) reparsed lines and removals. -/
theorem onlyLineGroupStep_ops (opts : Options) (ttl : String → List Node)
    (ed : Editor) (g : List Node) :
    (onlyLineGroupStep opts ttl ed g).current = ed.current ∧
    ∃ nb, (onlyLineGroupStep opts ttl ed g).batches = ed.batches ++ nb ∧
      (nb.map List.length).sum ≤
        (ttl (String.join (g.map Node.text))).length + g.length ∧
      (∀ op ∈ nb.flatten,
        (∃ pk i n, op = Op.insert pk i n ∧
          ∃ cl ∈ ttl (String.join (g.map Node.text)), n.marks = cl.marks) ∨
        ∃ k2, op = Op.remove k2) := by
  cases hh : g.head? with
  | none =>
    have hid : onlyLineGroupStep opts ttl ed g = ed := by
      rw [onlyLineGroupStep]
      simp only [hh]
    rw [hid]
    exact ⟨rfl, [], by simp, by simp, by simp⟩
  | some first =>
    cases hp : ed.document.getParent first.key with
    | none =>
      have hid : onlyLineGroupStep opts ttl ed g = ed := by
        rw [onlyLineGroupStep]
        simp only [hh, hp]
      rw [hid]
      exact ⟨rfl, [], by simp, by simp, by simp⟩
    | some parent =>
      have hunfold : onlyLineGroupStep opts ttl ed g =
          (ed.withoutNormalizing (insertLines parent.key
            (idxOf parent.nodes first) 0
            (ttl (String.join (g.map Node.text))))).withoutNormalizing
            (fun ed2 => g.foldl (fun ed3 n => ed3.removeNodeByKey n.key) ed2) := by
        rw [onlyLineGroupStep]
        simp only [hh, hp]
      rw [hunfold]
      obtain ⟨si, hii1, hii2, hii3, hii4⟩ := insertLines_ops parent.key
        (idxOf parent.nodes first) (ttl (String.join (g.map Node.text))) 0
        { ed with current := ([] : List Op) }
      obtain ⟨hEdoc, hEkey, hEcur, hEbat⟩ := withoutNormalizing_fields ed
        (insertLines parent.key (idxOf parent.nodes first) 0
          (ttl (String.join (g.map Node.text))))
      obtain ⟨sr, hrr1, hrr2, hrr3, hrr4, hrr5⟩ := removeFold_ops g
        { ed.withoutNormalizing (insertLines parent.key
            (idxOf parent.nodes first) 0
            (ttl (String.join (g.map Node.text)))) with
          current := ([] : List Op) }
      obtain ⟨hFdoc, hFkey, hFcur, hFbat⟩ := withoutNormalizing_fields
        (ed.withoutNormalizing (insertLines parent.key
          (idxOf parent.nodes first) 0
          (ttl (String.join (g.map Node.text)))))
        (fun ed2 => g.foldl (fun ed3 n => ed3.removeNodeByKey n.key) ed2)
      have hbat : ((ed.withoutNormalizing (insertLines parent.key
          (idxOf parent.nodes first) 0
          (ttl (String.join (g.map Node.text))))).withoutNormalizing
            (fun ed2 => g.foldl (fun ed3 n => ed3.removeNodeByKey n.key) ed2)).batches =
          ed.batches ++ [si, sr] := by
        rw [hFbat]
        show (g.foldl (fun (ed3 : Editor) n => ed3.removeNodeByKey n.key)
            { ed.withoutNormalizing (insertLines parent.key
                (idxOf parent.nodes first) 0
                (ttl (String.join (g.map Node.text)))) with
              current := ([] : List Op) }).batches ++
          [(g.foldl (fun (ed3 : Editor) n => ed3.removeNodeByKey n.key)
            { ed.withoutNormalizing (insertLines parent.key
                (idxOf parent.nodes first) 0
                (ttl (String.join (g.map Node.text)))) with
              current := ([] : List Op) }).current] = _
        rw [hrr4, hrr1]
        show (ed.withoutNormalizing (insertLines parent.key
            (idxOf parent.nodes first) 0
            (ttl (String.join (g.map Node.text))))).batches ++
          [([] : List Op) ++ sr] = _
        rw [hEbat, hii4, hii1]
        show (({ ed with current := ([] : List Op) } : Editor).batches ++
          [([] : List Op) ++ si]) ++ [([] : List Op) ++ sr] = _
        simp
      refine ⟨?_, [si, sr], hbat, ?_, ?_⟩
      · rw [hFcur, hEcur]
      · simp only [List.map_cons, List.map_nil, List.sum_cons, List.sum_nil]
        omega
      · intro op hop
        simp only [List.flatten_cons, List.flatten_nil, List.append_nil,
          List.mem_append] at hop
        rcases hop with hop | hop
        · obtain ⟨pk2, i, n, cl2, h1, h2, h3⟩ := hii3 op hop
          exact Or.inl ⟨pk2, i, n, h1, cl2, h2, h3⟩
        · exact Or.inr (hrr3 op hop)

/-- Hypothesis-free operation bound and shape for the whole
extract-and-reline group fold. -/
theorem onlyLineFold_ops (opts : Options) (ttl : String → List Node) :
    ∀ (gs : List (List Node)) (ed : Editor),
      (gs.foldl (onlyLineGroupStep opts ttl) ed).current = ed.current ∧
      ∃ nb, (gs.foldl (onlyLineGroupStep opts ttl) ed).batches =
          ed.batches ++ nb ∧
        (nb.map List.length).sum ≤ (gs.map (fun g =>
          (ttl (String.join (g.map Node.text))).length + g.length)).sum ∧
        (∀ op ∈ nb.flatten,
          (∃ pk i n, op = Op.insert pk i n ∧
            ∃ s2 cl, cl ∈ ttl s2 ∧ n.marks = cl.marks) ∨
          ∃ k2, op = Op.remove k2) := by
  intro gs
  induction gs with
  | nil =>
    intro ed
    exact ⟨rfl, [], by simp, by simp, by simp⟩
  | cons g gs ih =>
    intro ed
    obtain ⟨hc, nb1, hb1, hs1, ho1⟩ := onlyLineGroupStep_ops opts ttl ed g
    obtain ⟨hc2, nb2, hb2, hs2, ho2⟩ := ih (onlyLineGroupStep opts ttl ed g)
    refine ⟨by rw [List.foldl_cons, hc2, hc], nb1 ++ nb2, ?_, ?_, ?_⟩
    · rw [List.foldl_cons, hb2, hb1]
      simp [List.append_assoc]
    · simp only [List.map_append, List.sum_append, List.map_cons, List.sum_cons]
      omega
    · intro op hop
      rw [List.flatten_append, List.mem_append] at hop
      rcases hop with hop | hop
      · rcases ho1 op hop with ⟨pk, i, n, h1, cl, h2, h3⟩ | h
        · exact Or.inl ⟨pk, i, n, h1, String.join (g.map Node.text), cl, h2, h3⟩
        · exact Or.inr h
      · exact ho2 op hop

/-- Hypothesis-free operation bound and shape for one wrap-orphans group
step: at most one insert (of a fresh, markless, childless container) and
one move per line. -/
theorem noOrphanGroupStep_ops (opts : Options) (parent : Node)
    (ed : Editor) (g : List Node) : ∃ s,
    (noOrphanGroupStep opts parent ed g).current = ed.current ++ s ∧
    s.length ≤ 1 + g.length ∧
    (∀ op ∈ s,
      (∃ pk i n, op = Op.insert pk i n ∧ n.marks = [] ∧ n.nodes = [] ∧
        n.type = opts.containerType) ∨
      ∃ a b c, op = Op.move a b c) ∧
    (noOrphanGroupStep opts parent ed g).batches = ed.batches := by
  cases hh : g.head? with
  | none =>
    have hid : noOrphanGroupStep opts parent ed g = ed := by
      rw [noOrphanGroupStep]
      simp only [hh]
    rw [hid]
    exact ⟨[], by simp, by simp, by simp, rfl⟩
  | some first =>
    have hunfold : noOrphanGroupStep opts parent ed g =
        moveLines (Node.mk ed.nextKey opts.containerType "" [] []).key 0 g
          (({ ed with nextKey := ed.nextKey + 1 : Editor}).insertNodeByKey
            parent.key (idxOf parent.nodes first)
            (Node.mk ed.nextKey opts.containerType "" [] [])) := by
      rw [noOrphanGroupStep]
      simp only [hh]
    rw [hunfold]
    obtain ⟨s, hs1, hs2, hs3, hs4, hs5⟩ := moveLines_ops
      (Node.mk ed.nextKey opts.containerType "" [] []).key g 0
      (({ ed with nextKey := ed.nextKey + 1 : Editor}).insertNodeByKey
        parent.key (idxOf parent.nodes first)
        (Node.mk ed.nextKey opts.containerType "" [] []))
    refine ⟨Op.insert parent.key (idxOf parent.nodes first)
      (Node.mk ed.nextKey opts.containerType "" [] []) :: s, ?_, ?_, ?_, ?_⟩
    · rw [hs1]
      simp [Editor.insertNodeByKey]
    · simp only [List.length_cons]
      omega
    · intro op hop
      rcases List.mem_cons.mp hop with hop | hop
      · exact Or.inl ⟨parent.key, idxOf parent.nodes first,
          Node.mk ed.nextKey opts.containerType "" [] [], hop, rfl, rfl, rfl⟩
      · exact Or.inr (hs3 op hop)
    · rw [hs4]
      simp [Editor.insertNodeByKey]

/-- Hypothesis-free operation bound and shape for the whole wrap-orphans
group fold. -/
theorem noOrphanFold_ops (opts : Options) (parent : Node) :
    ∀ (gs : List (List Node)) (ed : Editor), ∃ s,
      (gs.foldl (noOrphanGroupStep opts parent) ed).current =
        ed.current ++ s ∧
      s.length ≤ (gs.map (fun g => 1 + g.length)).sum ∧
      (∀ op ∈ s,
        (∃ pk i n, op = Op.insert pk i n ∧ n.marks = [] ∧ n.nodes = [] ∧
          n.type = opts.containerType) ∨
        ∃ a b c, op = Op.move a b c) ∧
      (gs.foldl (noOrphanGroupStep opts parent) ed).batches = ed.batches := by
  intro gs
  induction gs with
  | nil =>
    intro ed
    exact ⟨[], by simp, by simp, by simp, rfl⟩
  | cons g gs ih =>
    intro ed
    obtain ⟨s1, h11, h12, h13, h14⟩ := noOrphanGroupStep_ops opts parent ed g
    obtain ⟨s2, h21, h22, h23, h24⟩ := ih (noOrphanGroupStep opts parent ed g)
    refine ⟨s1 ++ s2, ?_, ?_, ?_, ?_⟩
    · rw [List.foldl_cons, h21, h11]
      simp [List.append_assoc]
    · simp only [List.length_append, List.map_cons, List.sum_cons]
      omega
    · intro op hop
      rcases List.mem_append.mp hop with hop | hop
      · exact h13 op hop
      · exact h23 op hop
    · rw [List.foldl_cons, h24, h14]

/-- Sum of `1 + length` over a list of groups. -/
theorem sum_map_one_add (gs : List (List Node)) :
    (gs.map (fun g => 1 + g.length)).sum =
      gs.length + (gs.map List.length).sum := by
  induction gs with
  | nil => simp
  | cons g gs ih =>
    simp only [List.map_cons, List.sum_cons, List.length_cons, ih]
    omega

/-! ## Claim theorems -/

/-- C1: for every ordered sequence of nodes and every predicate, the run
grouper `getSuccessiveNodes` returns groups whose in-order concatenation
is exactly the sub-sequence of elements satisfying the predicate in their
original relative order, every returned group is non-empty and contiguous
in the input, and an empty input or an input with no passing element
yields an empty output. -/
theorem run_grouper_correctness (α : Type) (nodes : List α) (p : α → Bool) :
    ((getSuccessiveNodes nodes p).flatten = nodes.filter p) ∧
    (∀ g ∈ getSuccessiveNodes nodes p, g ≠ [] ∧ ∃ s t, s ++ g ++ t = nodes) ∧
    (getSuccessiveNodes ([] : List α) p = []) ∧
    ((∀ a ∈ nodes, p a = false) → getSuccessiveNodes nodes p = []) := by
  refine ⟨getSuccessiveNodes_flatten p nodes, ?_, ?_,
    getSuccessiveNodes_eq_nil p nodes⟩
  · intro g hg
    exact ⟨getSuccessiveNodes_ne_nil p nodes g hg,
      getSuccessiveNodes_contiguous p nodes g hg⟩
  · exact getSuccessiveNodes_nil_case [] p rfl

/-- Witness for C1 at a concrete sequence and predicate. -/
theorem run_grouper_correctness_witness :
    (getSuccessiveNodes [1, 2, 4, 3] (fun n => n % 2 == 0)).flatten = [2, 4] ∧
    getSuccessiveNodes [1, 3] (fun n => n % 2 == 0) = [] := by
  constructor
  · rw [(run_grouper_correctness Nat [1, 2, 4, 3] (fun n => n % 2 == 0)).1]
    decide
  · exact (run_grouper_correctness Nat [1, 3] (fun n => n % 2 == 0)).2.2.2
      (by decide)

/-- C8: the run grouper terminates with at most as many groups (and
grouped elements) as input elements, and each repair issues only a
finite, explicitly bounded number of operations before returning. -/
theorem grouper_terminates_and_ops_finite :
    (∀ (α : Type) (l : List α) (p : α → Bool),
      (getSuccessiveNodes l p).flatten.length ≤ l.length ∧
      (getSuccessiveNodes l p).length ≤ l.length) ∧
    (∀ (opts : Options) (ttl : String → List Node) (ed : Editor) (c : Node),
      (onlyLine opts ttl ed c).opsCount ≤ ed.opsCount +
        ((getSuccessiveNodes c.nodes (fun n => n.type != opts.lineType)).map
          (fun g => (ttl (String.join (g.map Node.text))).length +
            g.length)).sum) ∧
    (∀ (opts : Options) (ed : Editor) (p : Node),
      ((noOrphanLine opts ed p).1).opsCount ≤
        ed.opsCount + 2 * p.nodes.length) := by
  refine ⟨?_, ?_, ?_⟩
  · intro α l p
    constructor
    · rw [getSuccessiveNodes_flatten]
      exact List.length_filter_le p l
    · exact getSuccessiveNodes_count_le p l
  · intro opts ttl ed c
    have hol : onlyLine opts ttl ed c =
        ((getSuccessiveNodes c.nodes
          (fun n => n.type != opts.lineType)).filter
          (fun g => !g.isEmpty)).foldl (onlyLineGroupStep opts ttl) ed := by
      rw [onlyLine]
    rw [hol, getSuccessiveNodes_filter_ne_nil]
    obtain ⟨hc, nb, hb, hs, _⟩ := onlyLineFold_ops opts ttl
      (getSuccessiveNodes c.nodes (fun n => n.type != opts.lineType)) ed
    rw [Editor.opsCount, Editor.opsCount, hb, hc]
    simp only [List.map_append, List.sum_append]
    omega
  · intro opts ed p
    have hno : (noOrphanLine opts ed p).1 =
        ed.withoutNormalizing (fun ed0 =>
          (getSuccessiveNodes p.nodes
            (fun n => n.type == opts.lineType)).foldl
            (noOrphanGroupStep opts p) ed0) := by
      rw [noOrphanLine]
    obtain ⟨s, h1, h2, h3, h4⟩ := noOrphanFold_ops opts p
      (getSuccessiveNodes p.nodes (fun n => n.type == opts.lineType))
      { ed with current := ([] : List Op) }
    have hb2 : ((fun ed0 =>
        (getSuccessiveNodes p.nodes
          (fun n => n.type == opts.lineType)).foldl
          (noOrphanGroupStep opts p) ed0)
        { ed with current := ([] : List Op) } : Editor).batches =
        ed.batches := by
      show ((getSuccessiveNodes p.nodes
        (fun n => n.type == opts.lineType)).foldl
        (noOrphanGroupStep opts p) { ed with current := ([] : List Op) }).batches = _
      rw [h4]
    have hc2 : ((fun ed0 =>
        (getSuccessiveNodes p.nodes
          (fun n => n.type == opts.lineType)).foldl
          (noOrphanGroupStep opts p) ed0)
        { ed with current := ([] : List Op) } : Editor).current = s := by
      show ((getSuccessiveNodes p.nodes
        (fun n => n.type == opts.lineType)).foldl
        (noOrphanGroupStep opts p) { ed with current := ([] : List Op) }).current = _
      rw [h1]
      simp
    obtain ⟨hWdoc, hWkey, hWcur, hWbat⟩ := withoutNormalizing_fields ed
      (fun ed0 => (getSuccessiveNodes p.nodes
        (fun n => n.type == opts.lineType)).foldl
        (noOrphanGroupStep opts p) ed0)
    rw [hno, Editor.opsCount, Editor.opsCount, hWbat, hWcur, hb2, hc2]
    have hsum := sum_map_one_add
      (getSuccessiveNodes p.nodes (fun n => n.type == opts.lineType))
    have hcount := getSuccessiveNodes_count_le
      (fun n => n.type == opts.lineType) p.nodes
    have hflat : ((getSuccessiveNodes p.nodes
        (fun n => n.type == opts.lineType)).map List.length).sum ≤
        p.nodes.length := by
      rw [← List.length_flatten]
      rw [getSuccessiveNodes_flatten]
      exact List.length_filter_le _ _
    simp only [List.map_append, List.sum_append, List.map_cons,
      List.sum_cons, List.map_nil, List.sum_nil]
    omega

/-- C4 (Scenario 3): wrap-orphans on a parent with children
`[line "a", line "b", para, line "c"]` yields
`[container [line "a", line "b"], para, container [line "c"]]`. -/
theorem wrap_orphans_scenario3 :
    (noOrphanLine ⟨"code_block", "code_line", false⟩
      ⟨Node.mk 0 "div" "" [] [Node.mk 1 "code_line" "a" [] [],
        Node.mk 2 "code_line" "b" [] [], Node.mk 3 "paragraph" "" [] [],
        Node.mk 4 "code_line" "c" [] []], 100, [], []⟩
      (Node.mk 0 "div" "" [] [Node.mk 1 "code_line" "a" [] [],
        Node.mk 2 "code_line" "b" [] [], Node.mk 3 "paragraph" "" [] [],
        Node.mk 4 "code_line" "c" [] []])).1.document =
    Node.mk 0 "div" "" [] [
      Node.mk 100 "code_block" "" [] [Node.mk 1 "code_line" "a" [] [],
        Node.mk 2 "code_line" "b" [] []],
      Node.mk 3 "paragraph" "" [] [],
      Node.mk 101 "code_block" "" [] [Node.mk 4 "code_line" "c" [] []]] := by
  simp [noOrphanLine, noOrphanGroupStep, getSuccessiveNodes_cons_case,
    getSuccessiveNodes_nil_case, List.dropWhile_cons, List.takeWhile_cons,
    Node.type, Node.key, Node.nodes, moveLines, Editor.withoutNormalizing,
    Editor.insertNodeByKey, Editor.moveNodeByKey, Editor.removeNodeByKey,
    Node.insertByKey, nodesInsertByKey, Node.removeByKey, nodesRemoveByKey,
    Node.findByKey, nodesFindByKey, idxOf_cons_eq, idxOf_cons_ne, idxOf_nil,
    listInsertAt, Node.mk.injEq]

/--
C2 evaluation at the failing input: wrap-orphans on a parent with
children `[line a, line b, line c, para, line d, other]`.  The second
run `[line d]` originally sits between `para` and `other`, so the claim
requires its new container to be inserted there; the code instead looks
the insert index up in the stale `error.parent.nodes` snapshot (index 4),
which lands the container after `other` once the first three lines have
been moved out of the parent.
-/
theorem wrap_orphans_stale_position_eval :
    (noOrphanLine ⟨"code_block", "code_line", false⟩
      ⟨Node.mk 0 "div" "" [] [Node.mk 1 "code_line" "a" [] [],
        Node.mk 2 "code_line" "b" [] [], Node.mk 3 "code_line" "c" [] [],
        Node.mk 4 "paragraph" "" [] [], Node.mk 5 "code_line" "d" [] [],
        Node.mk 6 "other" "" [] []], 100, [], []⟩
      (Node.mk 0 "div" "" [] [Node.mk 1 "code_line" "a" [] [],
        Node.mk 2 "code_line" "b" [] [], Node.mk 3 "code_line" "c" [] [],
        Node.mk 4 "paragraph" "" [] [], Node.mk 5 "code_line" "d" [] [],
        Node.mk 6 "other" "" [] []])).1.document =
    Node.mk 0 "div" "" [] [
      Node.mk 100 "code_block" "" [] [Node.mk 1 "code_line" "a" [] [],
        Node.mk 2 "code_line" "b" [] [], Node.mk 3 "code_line" "c" [] []],
      Node.mk 4 "paragraph" "" [] [],
      Node.mk 6 "other" "" [] [],
      Node.mk 101 "code_block" "" [] [Node.mk 5 "code_line" "d" [] []]] := by
  simp [noOrphanLine, noOrphanGroupStep, getSuccessiveNodes_cons_case,
    getSuccessiveNodes_nil_case, List.dropWhile_cons, List.takeWhile_cons,
    Node.type, Node.key, Node.nodes, moveLines, Editor.withoutNormalizing,
    Editor.insertNodeByKey, Editor.moveNodeByKey, Editor.removeNodeByKey,
    Node.insertByKey, nodesInsertByKey, Node.removeByKey, nodesRemoveByKey,
    Node.findByKey, nodesFindByKey, idxOf_cons_eq, idxOf_cons_ne, idxOf_nil,
    listInsertAt, Node.mk.injEq]

/-- C3: for every container (with globally distinct subtree keys and a
fresh key counter), after `onlyLine` the container's child sequence
equals the spec-side interleaving `relineRun`: the untouched line runs,
with each maximal non-line run replaced in place by the freshly keyed
lines reparsed from the run's concatenated text. -/
theorem extract_and_reline_order_preservation
    (opts : Options) (ttl : String → List Node)
    (Httl : ∀ s, ∀ n ∈ ttl s, n.nodes = [])
    (rk : Nat) (rt rtx : String) (rm : List String) (children : List Node)
    (nk : Nat) (cur : List Op) (bat : List (List Op))
    (hnodup : (nodesKeys children).Nodup)
    (hfresh : ∀ x ∈ nodesKeys children, x < nk) :
    (onlyLine opts ttl ⟨Node.mk rk rt rtx rm children, nk, cur, bat⟩
        (Node.mk rk rt rtx rm children)).document =
      Node.mk rk rt rtx rm (relineRun opts ttl rk children 0 nk).1 := by
  have hol : onlyLine opts ttl ⟨Node.mk rk rt rtx rm children, nk, cur, bat⟩
      (Node.mk rk rt rtx rm children) =
      ((getSuccessiveNodes children
        (fun n => n.type != opts.lineType)).filter
        (fun g => !g.isEmpty)).foldl (onlyLineGroupStep opts ttl)
        ⟨Node.mk rk rt rtx rm children, nk, cur, bat⟩ := by
    rw [onlyLine]
    rfl
  rw [hol, getSuccessiveNodes_filter_ne_nil]
  have hmain := onlyLine_fold_run opts ttl Httl rk rt rtx rm children []
    ⟨Node.mk rk rt rtx rm children, nk, cur, bat⟩
    (by simp) (by simpa using hnodup) (by simpa using hfresh)
  rw [hmain.1]
  simp

/-- Witness for C3 at a concrete container mixing lines and text. -/
theorem extract_and_reline_order_preservation_witness :
    (onlyLine ⟨"code_block", "code_line", false⟩
      (fun s => [Node.mk 0 "code_line" s [] []])
      ⟨Node.mk 0 "code_block" "" [] [Node.mk 1 "code_line" "a" [] [],
        Node.mk 2 "" "x" [] [], Node.mk 3 "" "y" [] [],
        Node.mk 4 "code_line" "b" [] []], 100, [], []⟩
      (Node.mk 0 "code_block" "" [] [Node.mk 1 "code_line" "a" [] [],
        Node.mk 2 "" "x" [] [], Node.mk 3 "" "y" [] [],
        Node.mk 4 "code_line" "b" [] []])).document =
    Node.mk 0 "code_block" "" []
      (relineRun ⟨"code_block", "code_line", false⟩
        (fun s => [Node.mk 0 "code_line" s [] []]) 0
        [Node.mk 1 "code_line" "a" [] [], Node.mk 2 "" "x" [] [],
          Node.mk 3 "" "y" [] [], Node.mk 4 "code_line" "b" [] []] 0 100).1 :=
  extract_and_reline_order_preservation ⟨"code_block", "code_line", false⟩
    (fun s => [Node.mk 0 "code_line" s [] []])
    (by
      intro s n hn
      rw [List.mem_singleton] at hn
      subst hn
      rfl)
    0 "code_block" "" []
    [Node.mk 1 "code_line" "a" [] [], Node.mk 2 "" "x" [] [],
      Node.mk 3 "" "y" [] [], Node.mk 4 "code_line" "b" [] []]
    100 [] [] (by decide) (by decide)

/-- C5: the batch trace of `onlyLine` is exactly the spec-side trace of
`relineRun`: for each maximal non-line run, processed left to right, one
batch inserting the reparsed lines at the run's live position (the
length of the already-processed live prefix plus the untouched line run
before it), followed by a second batch removing the run's original
nodes by key. -/
theorem extract_and_reline_batching
    (opts : Options) (ttl : String → List Node)
    (Httl : ∀ s, ∀ n ∈ ttl s, n.nodes = [])
    (rk : Nat) (rt rtx : String) (rm : List String) (children : List Node)
    (nk : Nat) (cur : List Op) (bat : List (List Op))
    (hnodup : (nodesKeys children).Nodup)
    (hfresh : ∀ x ∈ nodesKeys children, x < nk) :
    (onlyLine opts ttl ⟨Node.mk rk rt rtx rm children, nk, cur, bat⟩
        (Node.mk rk rt rtx rm children)).batches =
      bat ++ (relineRun opts ttl rk children 0 nk).2.1 ∧
    (onlyLine opts ttl ⟨Node.mk rk rt rtx rm children, nk, cur, bat⟩
        (Node.mk rk rt rtx rm children)).current = cur := by
  have hol : onlyLine opts ttl ⟨Node.mk rk rt rtx rm children, nk, cur, bat⟩
      (Node.mk rk rt rtx rm children) =
      ((getSuccessiveNodes children
        (fun n => n.type != opts.lineType)).filter
        (fun g => !g.isEmpty)).foldl (onlyLineGroupStep opts ttl)
        ⟨Node.mk rk rt rtx rm children, nk, cur, bat⟩ := by
    rw [onlyLine]
    rfl
  rw [hol, getSuccessiveNodes_filter_ne_nil]
  have hmain := onlyLine_fold_run opts ttl Httl rk rt rtx rm children []
    ⟨Node.mk rk rt rtx rm children, nk, cur, bat⟩
    (by simp) (by simpa using hnodup) (by simpa using hfresh)
  refine ⟨?_, hmain.2.2.2⟩
  rw [hmain.2.2.1]
  simp

/-- Witness for C5 at a concrete container mixing lines and text. -/
theorem extract_and_reline_batching_witness :
    (onlyLine ⟨"code_block", "code_line", false⟩
      (fun s => [Node.mk 0 "code_line" s [] []])
      ⟨Node.mk 0 "code_block" "" [] [Node.mk 1 "code_line" "a" [] [],
        Node.mk 2 "" "x" [] [], Node.mk 3 "" "y" [] [],
        Node.mk 4 "code_line" "b" [] []], 100, [], []⟩
      (Node.mk 0 "code_block" "" [] [Node.mk 1 "code_line" "a" [] [],
        Node.mk 2 "" "x" [] [], Node.mk 3 "" "y" [] [],
        Node.mk 4 "code_line" "b" [] []])).batches =
    [] ++ (relineRun ⟨"code_block", "code_line", false⟩
        (fun s => [Node.mk 0 "code_line" s [] []]) 0
        [Node.mk 1 "code_line" "a" [] [], Node.mk 2 "" "x" [] [],
          Node.mk 3 "" "y" [] [], Node.mk 4 "code_line" "b" [] []] 0 100).2.1 :=
  (extract_and_reline_batching ⟨"code_block", "code_line", false⟩
    (fun s => [Node.mk 0 "code_line" s [] []])
    (by
      intro s n hn
      rw [List.mem_singleton] at hn
      subst hn
      rfl)
    0 "code_block" "" []
    [Node.mk 1 "code_line" "a" [] [], Node.mk 2 "" "x" [] [],
      Node.mk 3 "" "y" [] [], Node.mk 4 "code_line" "b" [] []]
    100 [] [] (by decide) (by decide)).1

/-- C9: repairs are no-ops on valid input: a container whose children
are all line-typed passes through `onlyLine` unchanged; a parent with no
line-typed child passes through `noOrphanLine` with an unchanged tree
and zero issued operations; and the non-emptiness filter never removes a
group (empty groups do not reach repair logic). -/
theorem repairs_noop_on_valid_input :
    ∀ (opts : Options) (ttl : String → List Node) (ed : Editor) (c p : Node),
      ((∀ n ∈ c.nodes, n.type = opts.lineType) →
        onlyLine opts ttl ed c = ed) ∧
      ((∀ n ∈ p.nodes, n.type ≠ opts.lineType) →
        (noOrphanLine opts ed p).1.document = ed.document ∧
        (noOrphanLine opts ed p).1.opsCount = ed.opsCount) ∧
      ((getSuccessiveNodes c.nodes (fun n => n.type != opts.lineType)).filter
        (fun g => !g.isEmpty) =
        getSuccessiveNodes c.nodes (fun n => n.type != opts.lineType)) := by
  intro opts ttl ed c p
  refine ⟨?_, ?_, getSuccessiveNodes_filter_ne_nil _ _⟩
  · intro hall
    have hgs : getSuccessiveNodes c.nodes
        (fun n => n.type != opts.lineType) = [] := by
      apply getSuccessiveNodes_eq_nil
      intro a ha
      simp [hall a ha]
    have hol : onlyLine opts ttl ed c =
        ((getSuccessiveNodes c.nodes
          (fun n => n.type != opts.lineType)).filter
          (fun g => !g.isEmpty)).foldl (onlyLineGroupStep opts ttl) ed := by
      rw [onlyLine]
    rw [hol, hgs]
    rfl
  · intro hall
    have hgs : getSuccessiveNodes p.nodes
        (fun n => n.type == opts.lineType) = [] := by
      apply getSuccessiveNodes_eq_nil
      intro a ha
      simp only [beq_eq_false_iff_ne, ne_eq]
      exact hall a ha
    have hno : (noOrphanLine opts ed p).1 =
        ed.withoutNormalizing (fun ed0 =>
          (getSuccessiveNodes p.nodes
            (fun n => n.type == opts.lineType)).foldl
            (noOrphanGroupStep opts p) ed0) := by
      rw [noOrphanLine]
    rw [hno, hgs]
    constructor
    · simp [Editor.withoutNormalizing]
    · simp [Editor.withoutNormalizing, Editor.opsCount]

/-- Witness for C9 on a concrete all-line container and a concrete
line-free parent. -/
theorem repairs_noop_on_valid_input_witness :
    onlyLine ⟨"code_block", "code_line", false⟩
      (fun s => [Node.mk 0 "code_line" s [] []])
      ⟨Node.mk 0 "code_block" "" [] [Node.mk 1 "code_line" "a" [] []],
        100, [], []⟩
      (Node.mk 0 "code_block" "" [] [Node.mk 1 "code_line" "a" [] []]) =
      ⟨Node.mk 0 "code_block" "" [] [Node.mk 1 "code_line" "a" [] []],
        100, [], []⟩ ∧
    (noOrphanLine ⟨"code_block", "code_line", false⟩
      ⟨Node.mk 0 "div" "" [] [Node.mk 1 "paragraph" "p" [] []],
        100, [], []⟩
      (Node.mk 0 "div" "" [] [Node.mk 1 "paragraph" "p" [] []])).1.document =
      Node.mk 0 "div" "" [] [Node.mk 1 "paragraph" "p" [] []] := by
  constructor
  · exact (repairs_noop_on_valid_input ⟨"code_block", "code_line", false⟩
      (fun s => [Node.mk 0 "code_line" s [] []])
      ⟨Node.mk 0 "code_block" "" [] [Node.mk 1 "code_line" "a" [] []],
        100, [], []⟩
      (Node.mk 0 "code_block" "" [] [Node.mk 1 "code_line" "a" [] []])
      (Node.mk 0 "div" "" [] [])).1 (by
        intro n hn
        rw [show (Node.mk 0 "code_block" "" []
          [Node.mk 1 "code_line" "a" [] []]).nodes =
          [Node.mk 1 "code_line" "a" [] []] from rfl] at hn
        rw [List.mem_singleton] at hn
        subst hn
        rfl)
  · exact ((repairs_noop_on_valid_input ⟨"code_block", "code_line", false⟩
      (fun s => [Node.mk 0 "code_line" s [] []])
      ⟨Node.mk 0 "div" "" [] [Node.mk 1 "paragraph" "p" [] []],
        100, [], []⟩
      (Node.mk 0 "div" "" [] [])
      (Node.mk 0 "div" "" [] [Node.mk 1 "paragraph" "p" [] []])).2.1 (by
        intro n hn
        rw [show (Node.mk 0 "div" "" []
          [Node.mk 1 "paragraph" "p" [] []]).nodes =
          [Node.mk 1 "paragraph" "p" [] []] from rfl] at hn
        rw [List.mem_singleton] at hn
        subst hn
        decide)).1

/-- C10: the produced schema forbids all marks on line nodes exactly when
`allowMarks` is false (no marks constraint is declared otherwise); every
node inserted by the wrap-orphans repair is a fresh container with no
marks and no children; and, when the reparse collaborator produces
markless lines, every node inserted by extract-and-reline is markless as
well — the repairs never add marks. -/
theorem marks_policy :
    (∀ (opts : Options) (ttl : String → List Node),
      ((schema opts ttl).lineRule.marks = some []) ↔
        opts.allowMarks = false) ∧
    (∀ (opts : Options) (ed : Editor) (p : Node), ∃ nb,
      ((noOrphanLine opts ed p).1).batches = ed.batches ++ nb ∧
      ∀ op ∈ nb.flatten, ∀ pk i n, op = Op.insert pk i n →
        n.marks = [] ∧ n.nodes = [] ∧ n.type = opts.containerType) ∧
    (∀ (opts : Options) (ttl : String → List Node) (ed : Editor) (c : Node),
      (∀ s, ∀ cl ∈ ttl s, cl.marks = []) → ∃ nb,
      (onlyLine opts ttl ed c).batches = ed.batches ++ nb ∧
      ∀ op ∈ nb.flatten, ∀ pk i n, op = Op.insert pk i n →
        n.marks = []) := by
  refine ⟨?_, ?_, ?_⟩
  · intro opts ttl
    cases h : opts.allowMarks <;> simp [schema, h]
  · intro opts ed p
    have hno : (noOrphanLine opts ed p).1 =
        ed.withoutNormalizing (fun ed0 =>
          (getSuccessiveNodes p.nodes
            (fun n => n.type == opts.lineType)).foldl
            (noOrphanGroupStep opts p) ed0) := by
      rw [noOrphanLine]
    obtain ⟨s, h1, h2, h3, h4⟩ := noOrphanFold_ops opts p
      (getSuccessiveNodes p.nodes (fun n => n.type == opts.lineType))
      { ed with current := ([] : List Op) }
    obtain ⟨hWdoc, hWkey, hWcur, hWbat⟩ := withoutNormalizing_fields ed
      (fun ed0 => (getSuccessiveNodes p.nodes
        (fun n => n.type == opts.lineType)).foldl
        (noOrphanGroupStep opts p) ed0)
    have hb2 : ((fun ed0 =>
        (getSuccessiveNodes p.nodes
          (fun n => n.type == opts.lineType)).foldl
          (noOrphanGroupStep opts p) ed0)
        { ed with current := ([] : List Op) } : Editor).batches =
        ed.batches := by
      show ((getSuccessiveNodes p.nodes
        (fun n => n.type == opts.lineType)).foldl
        (noOrphanGroupStep opts p)
        { ed with current := ([] : List Op) }).batches = _
      rw [h4]
    have hc2 : ((fun ed0 =>
        (getSuccessiveNodes p.nodes
          (fun n => n.type == opts.lineType)).foldl
          (noOrphanGroupStep opts p) ed0)
        { ed with current := ([] : List Op) } : Editor).current = s := by
      show ((getSuccessiveNodes p.nodes
        (fun n => n.type == opts.lineType)).foldl
        (noOrphanGroupStep opts p)
        { ed with current := ([] : List Op) }).current = _
      rw [h1]
      simp
    refine ⟨[s], ?_, ?_⟩
    · rw [hno, hWbat, hb2, hc2]
    · intro op hop pk i n hins
      rw [List.flatten_cons, List.flatten_nil, List.append_nil] at hop
      rcases h3 op hop with ⟨pk2, i2, n2, he, hm, hn, ht⟩ | ⟨a, b, c2, he⟩
      · rw [hins] at he
        injection he with e1 e2 e3
        subst e3
        exact ⟨hm, hn, ht⟩
      · rw [hins] at he
        exact absurd he (by simp)
  · intro opts ttl ed c hm
    have hol : onlyLine opts ttl ed c =
        ((getSuccessiveNodes c.nodes
          (fun n => n.type != opts.lineType)).filter
          (fun g => !g.isEmpty)).foldl (onlyLineGroupStep opts ttl) ed := by
      rw [onlyLine]
    rw [hol, getSuccessiveNodes_filter_ne_nil]
    obtain ⟨hc, nb, hb, hs, ho⟩ := onlyLineFold_ops opts ttl
      (getSuccessiveNodes c.nodes (fun n => n.type != opts.lineType)) ed
    refine ⟨nb, hb, ?_⟩
    intro op hop pk i n hins
    rcases ho op hop with ⟨pk2, i2, n2, he, s2, cl, hcl, hmk⟩ | ⟨k2, he⟩
    · rw [hins] at he
      injection he with e1 e2 e3
      subst e3
      rw [hmk]
      exact hm s2 cl hcl
    · rw [hins] at he
      exact absurd he (by simp)

/-- Witness for C10 with a concrete markless reparse collaborator. -/
theorem marks_policy_witness :
    ∃ nb, (onlyLine ⟨"code_block", "code_line", false⟩
      (fun s => [Node.mk 0 "code_line" s [] []])
      ⟨Node.mk 0 "code_block" "" [] [Node.mk 1 "" "x" [] []], 100, [], []⟩
      (Node.mk 0 "code_block" "" [] [Node.mk 1 "" "x" [] []])).batches =
      [] ++ nb ∧
    ∀ op ∈ nb.flatten, ∀ pk i n, op = Op.insert pk i n → n.marks = [] :=
  marks_policy.2.2 ⟨"code_block", "code_line", false⟩
    (fun s => [Node.mk 0 "code_line" s [] []])
    ⟨Node.mk 0 "code_block" "" [] [Node.mk 1 "" "x" [] []], 100, [], []⟩
    (Node.mk 0 "code_block" "" [] [Node.mk 1 "" "x" [] []])
    (by
      intro s cl hcl
      rw [List.mem_singleton] at hcl
      subst hcl
      rfl)

/-- C6: the schema dispatch routes `child_object_invalid` and
`child_type_invalid` to the extract-and-reline repair, routes
`parent_object_invalid` and `parent_type_invalid` to the wrap-orphans
repair, and on any other code performs no repair and returns the
unhandled (`undefined`) result; the `schema` object's `normalize`
callbacks are exactly these two dispatchers. -/
theorem schema_dispatch_routing :
    ∀ (opts : Options) (ttl : String → List Node) (e : Editor)
      (err : SlateError),
      ((err.code = CHILD_OBJECT_INVALID ∨ err.code = CHILD_TYPE_INVALID) →
        containerNormalize opts ttl e err =
          (onlyLine opts ttl e err.node,
            some (onlyLine opts ttl e err.node))) ∧
      ((err.code = PARENT_OBJECT_INVALID ∨ err.code = PARENT_TYPE_INVALID) →
        lineNormalize opts e err = noOrphanLine opts e err.parent) ∧
      (err.code ≠ CHILD_OBJECT_INVALID → err.code ≠ CHILD_TYPE_INVALID →
        containerNormalize opts ttl e err = (e, none)) ∧
      (err.code ≠ PARENT_OBJECT_INVALID → err.code ≠ PARENT_TYPE_INVALID →
        lineNormalize opts e err = (e, none)) ∧
      ((schema opts ttl).containerRule.normalize =
          containerNormalize opts ttl ∧
        (schema opts ttl).lineRule.normalize = lineNormalize opts) := by
  intro opts ttl e err
  refine ⟨?_, ?_, ?_, ?_, rfl, rfl⟩
  · intro h
    rw [containerNormalize, if_pos h]
  · intro h
    rw [lineNormalize, if_pos h]
  · intro h1 h2
    rw [containerNormalize, if_neg (by tauto)]
  · intro h1 h2
    rw [lineNormalize, if_neg (by tauto)]

/-- Witness for C6 at concrete violation codes. -/
theorem schema_dispatch_routing_witness :
    containerNormalize ⟨"code_block", "code_line", false⟩ (fun _ => [])
      ⟨Node.mk 0 "code_block" "" [] [], 1, [], []⟩
      ⟨CHILD_TYPE_INVALID, Node.mk 0 "code_block" "" [] [],
        Node.mk 0 "code_block" "" [] []⟩ =
      (onlyLine ⟨"code_block", "code_line", false⟩ (fun _ => [])
        ⟨Node.mk 0 "code_block" "" [] [], 1, [], []⟩
        (Node.mk 0 "code_block" "" [] []),
       some (onlyLine ⟨"code_block", "code_line", false⟩ (fun _ => [])
        ⟨Node.mk 0 "code_block" "" [] [], 1, [], []⟩
        (Node.mk 0 "code_block" "" [] []))) ∧
    lineNormalize ⟨"code_block", "code_line", false⟩
      ⟨Node.mk 0 "code_block" "" [] [], 1, [], []⟩
      ⟨"some_other_code", Node.mk 0 "code_block" "" [] [],
        Node.mk 0 "code_block" "" [] []⟩ =
      (⟨Node.mk 0 "code_block" "" [] [], 1, [], []⟩, none) := by
  constructor
  · exact (schema_dispatch_routing ⟨"code_block", "code_line", false⟩
      (fun _ => []) ⟨Node.mk 0 "code_block" "" [] [], 1, [], []⟩
      ⟨CHILD_TYPE_INVALID, Node.mk 0 "code_block" "" [] [],
        Node.mk 0 "code_block" "" [] []⟩).1 (Or.inr rfl)
  · exact (schema_dispatch_routing ⟨"code_block", "code_line", false⟩
      (fun _ => []) ⟨Node.mk 0 "code_block" "" [] [], 1, [], []⟩
      ⟨"some_other_code", Node.mk 0 "code_block" "" [] [],
        Node.mk 0 "code_block" "" [] []⟩).2.2.2.1 (by decide) (by decide)

/--
C7 counterexample: the orphan-line repair on a parent holding one orphan
line performs a repair (the document changes: the line gets wrapped in a
new container), yet the function returns `undefined` — the distinguished
unhandled result — because `noOrphanLine` has no `return` statement.
-/
theorem noOrphanLine_repairs_but_returns_none :
    (noOrphanLine ⟨"code_block", "code_line", false⟩
      ⟨Node.mk 0 "div" "" [] [Node.mk 1 "code_line" "a" [] []], 100, [], []⟩
      (Node.mk 0 "div" "" [] [Node.mk 1 "code_line" "a" [] []])).2 = none ∧
    (noOrphanLine ⟨"code_block", "code_line", false⟩
      ⟨Node.mk 0 "div" "" [] [Node.mk 1 "code_line" "a" [] []], 100, [], []⟩
      (Node.mk 0 "div" "" [] [Node.mk 1 "code_line" "a" [] []])).1.document ≠
      Node.mk 0 "div" "" [] [Node.mk 1 "code_line" "a" [] []] := by
  constructor
  · rfl
  · have heval : (noOrphanLine ⟨"code_block", "code_line", false⟩
        ⟨Node.mk 0 "div" "" [] [Node.mk 1 "code_line" "a" [] []],
          100, [], []⟩
        (Node.mk 0 "div" "" [] [Node.mk 1 "code_line" "a" [] []])).1.document =
        Node.mk 0 "div" "" [] [Node.mk 100 "code_block" "" []
          [Node.mk 1 "code_line" "a" [] []]] := by
      simp [noOrphanLine, noOrphanGroupStep, getSuccessiveNodes_cons_case,
        getSuccessiveNodes_nil_case, List.dropWhile_cons, List.takeWhile_cons,
        Node.type, Node.key, Node.nodes, moveLines, Editor.withoutNormalizing,
        Editor.insertNodeByKey, Editor.moveNodeByKey, Editor.removeNodeByKey,
        Node.insertByKey, nodesInsertByKey, Node.removeByKey,
        nodesRemoveByKey, Node.findByKey, nodesFindByKey, idxOf_cons_eq,
        idxOf_cons_ne, idxOf_nil, listInsertAt, Node.mk.injEq]
    rw [heval]
    intro h
    simp [Node.mk.injEq] at h

/-- C7 amended: the container-children repair, when routed a child
violation, returns the updated transaction handle; the orphan-line
repair applies its edits to the transaction but always returns the
unhandled (`undefined`) result, even when it performs a repair. -/
theorem repair_return_values_amended :
    ∀ (opts : Options) (ttl : String → List Node) (e : Editor)
      (err : SlateError) (p : Node),
      ((noOrphanLine opts e p).2 = none) ∧
      ((err.code = CHILD_OBJECT_INVALID ∨ err.code = CHILD_TYPE_INVALID) →
        (containerNormalize opts ttl e err).2 =
          some (containerNormalize opts ttl e err).1) := by
  intro opts ttl e err p
  constructor
  · rfl
  · intro h
    rw [containerNormalize, if_pos h]

/-- Witness for the amended C7 at a concrete child violation. -/
theorem repair_return_values_amended_witness :
    (noOrphanLine ⟨"code_block", "code_line", false⟩
      ⟨Node.mk 0 "div" "" [] [], 1, [], []⟩
      (Node.mk 0 "div" "" [] [])).2 = none ∧
    (containerNormalize ⟨"code_block", "code_line", false⟩ (fun _ => [])
      ⟨Node.mk 0 "div" "" [] [], 1, [], []⟩
      ⟨CHILD_OBJECT_INVALID, Node.mk 0 "div" "" [] [],
        Node.mk 0 "div" "" [] []⟩).2 =
      some (containerNormalize ⟨"code_block", "code_line", false⟩
        (fun _ => []) ⟨Node.mk 0 "div" "" [] [], 1, [], []⟩
        ⟨CHILD_OBJECT_INVALID, Node.mk 0 "div" "" [] [],
          Node.mk 0 "div" "" [] []⟩).1 := by
  constructor
  · exact (repair_return_values_amended ⟨"code_block", "code_line", false⟩
      (fun _ => []) ⟨Node.mk 0 "div" "" [] [], 1, [], []⟩
      ⟨CHILD_OBJECT_INVALID, Node.mk 0 "div" "" [] [],
        Node.mk 0 "div" "" [] []⟩ (Node.mk 0 "div" "" [] [])).1
  · exact (repair_return_values_amended ⟨"code_block", "code_line", false⟩
      (fun _ => []) ⟨Node.mk 0 "div" "" [] [], 1, [], []⟩
      ⟨CHILD_OBJECT_INVALID, Node.mk 0 "div" "" [] [],
        Node.mk 0 "div" "" [] []⟩ (Node.mk 0 "div" "" [] [])).2
      (Or.inl rfl)

end SlateCodeBlock
